import Mathlib

/-!
# Verification of the incremental Game-of-Life engine

Shallow embedding of the `Life` class of `Yoni_Ifrah_ConwaysGameOfLife.py`.
Python lists are modelled as Lean `List`s accessed through `pyGet` / `pySet`,
which reproduce Python's indexing semantics: negative indices wrap once from
the end, and indices outside `[-len, len)` raise `IndexError` (modelled as
`Except.error PyErr.indexError`).  The dirty set `needs_update` is a Python
`set` and is modelled as a `Finset ℤ`; where the code iterates over it, the
model enumerates it in ascending order (order-independence is proved
separately).
-/

/-- The only runtime error the engine can produce: Python's `IndexError`. -/
inductive PyErr where
  | indexError
deriving DecidableEq, Repr

/-- Normalised (Python-style) index into a list of length `n`:
negative indices count from the end. -/
def pyIdx (n : ℕ) (i : ℤ) : ℤ :=
  if i < 0 then i + n else i

/-- Python list read `l[i]`. -/
def pyGet {α : Type _} (l : List α) (i : ℤ) : Except PyErr α :=
  if h : 0 ≤ pyIdx l.length i ∧ pyIdx l.length i < l.length then
    .ok (l.get ⟨(pyIdx l.length i).toNat, by omega⟩)
  else
    .error .indexError

/-- Python list write `l[i] = a`. -/
def pySet {α : Type _} (l : List α) (i : ℤ) (a : α) : Except PyErr (List α) :=
  if 0 ≤ pyIdx l.length i ∧ pyIdx l.length i < l.length then
    .ok (l.set (pyIdx l.length i).toNat a)
  else
    .error .indexError

/-- `range(n)` for an integer argument (empty when `n ≤ 0`). -/
def rangeZ (n : ℤ) : List ℤ :=
  List.map (fun k : ℕ => (k : ℤ)) (List.range n.toNat)

/-- The source's `product(pool, repeat=2)`: cartesian square in
lexicographic order with the first coordinate outermost. -/
def product2 (pool : List ℤ) : List (ℤ × ℤ) :=
  pool.flatMap (fun x => pool.map (fun y => (x, y)))

/-- The 8 relative neighbour offsets computed in `Life.__init__`:
`[y * (width + 2) + x for x, y in product((-1, 0, 1), repeat=2) if x or y]`. -/
def neighbourhoodOf (width : ℤ) : List ℤ :=
  ((product2 [-1, 0, 1]).filter (fun q => !(q.1 == 0 && q.2 == 0))).map
    (fun q => q.2 * (width + 2) + q.1)

/-- Storage-cell count of the padded grid, `(width + 2) * (height + 2)`. -/
def cellsZ (width height : ℤ) : ℤ :=
  (width + 2) * (height + 2)

/-- The pure coordinate transform of `Life.cell`. -/
def cellIdx (width x y : ℤ) : ℤ :=
  (width + 2) * (y + 1) + x + 1

/-- State of the `Life` engine: mirrors the attributes of the Python class. -/
structure Life where
  width : ℤ
  height : ℤ
  live : List Bool
  in_bounds : List Bool
  neighbours : List ℤ
  neighbourhood : List ℤ
  needs_update : Finset ℤ
deriving DecidableEq, Inhabited

/-- First border loop of `__init__`:
`for i in range(width + 2): self.in_bounds[i] = self.in_bounds[-i] = False`. -/
def maskLoop1 (l : List Bool) : List ℤ → Except PyErr (List Bool)
  | [] => .ok l
  | i :: rest =>
    match pySet l i false with
    | .error e => .error e
    | .ok l₁ =>
      match pySet l₁ (-i) false with
      | .error e => .error e
      | .ok l₂ => maskLoop1 l₂ rest

/-- Second border loop of `__init__`:
`for j in range(height): k = (j+1)*(width+2); self.in_bounds[k-1] = self.in_bounds[k] = False`. -/
def maskLoop2 (W : ℤ) (l : List Bool) : List ℤ → Except PyErr (List Bool)
  | [] => .ok l
  | j :: rest =>
    match pySet l ((j + 1) * W - 1) false with
    | .error e => .error e
    | .ok l₁ =>
      match pySet l₁ ((j + 1) * W) false with
      | .error e => .error e
      | .ok l₂ => maskLoop2 W l₂ rest

/-- `Life.__init__(width, height)`. -/
def Life.init (width height : ℤ) : Except PyErr Life :=
  let cells := (cellsZ width height).toNat
  match maskLoop1 (List.replicate cells true) (rangeZ (width + 2)) with
  | .error e => .error e
  | .ok ib₁ =>
    match maskLoop2 (width + 2) ib₁ (rangeZ height) with
    | .error e => .error e
    | .ok ib₂ =>
      .ok { width := width
            height := height
            live := List.replicate cells false
            in_bounds := ib₂
            neighbours := List.replicate cells 0
            neighbourhood := neighbourhoodOf width
            needs_update := ∅ }

/-- `Life.cell(x, y) = (width + 2) * (y + 1) + x + 1`. -/
def Life.cell (s : Life) (x y : ℤ) : ℤ :=
  (s.width + 2) * (y + 1) + x + 1

/-- The neighbour-adjustment loop inside `Life.set`:
`for n in self.neighbourhood: n += p; if self.in_bounds[n]: ...`. -/
def adjLoop (t : Life) (p adjust : ℤ) : List ℤ → Except PyErr Life
  | [] => .ok t
  | off :: rest =>
    match pyGet t.in_bounds (off + p) with
    | .error e => .error e
    | .ok b =>
      if b then
        match pyGet t.neighbours (off + p) with
        | .error e => .error e
        | .ok cur =>
          match pySet t.neighbours (off + p) (cur + adjust) with
          | .error e => .error e
          | .ok nb =>
            adjLoop { t with neighbours := nb,
                             needs_update := insert (off + p) t.needs_update }
              p adjust rest
      else adjLoop t p adjust rest

/-- `Life.set(p, value)`.  The guard `value != self.live[p] and self.in_bounds[p]`
short-circuits: `self.live[p]` is read first, and `self.in_bounds[p]` only when
the values differ. -/
def Life.set (s : Life) (p : ℤ) (value : Bool) : Except PyErr Life :=
  match pyGet s.live p with
  | .error e => .error e
  | .ok lv =>
    if value = lv then .ok s
    else
      match pyGet s.in_bounds p with
      | .error e => .error e
      | .ok ib =>
        if ib then
          match pySet s.live p value with
          | .error e => .error e
          | .ok live' =>
            adjLoop { s with live := live',
                             needs_update := insert p s.needs_update }
              p (if value then 1 else -1) s.neighbourhood
        else .ok s

/-- Ascending enumeration of a finite set of integers, by insertion sort
(kernel-reducible, unlike `Finset.sort`). -/
def sortFinZ (u : Finset ℤ) : List ℤ :=
  Quot.liftOn u.val (fun l => List.insertionSort (· ≤ ·) l) (fun a b h =>
    List.eq_of_perm_of_sorted
      ((List.perm_insertionSort _ a).trans (h.trans (List.perm_insertionSort _ b).symm))
      (List.sorted_insertionSort _ a) (List.sorted_insertionSort _ b))

/-- Builds the snapshot `[(p, self.live[p], self.neighbours[p]) for p in u]`. -/
def snapList (s : Life) : List ℤ → Except PyErr (List (ℤ × Bool × ℤ))
  | [] => .ok []
  | p :: rest =>
    match pyGet s.live p with
    | .error e => .error e
    | .ok lv =>
      match pyGet s.neighbours p with
      | .error e => .error e
      | .ok nb =>
        match snapList s rest with
        | .error e => .error e
        | .ok u => .ok ((p, lv, nb) :: u)

/-- One snapshot entry processed by the rule in `Life.update`'s inner loop. -/
def applyRule (t : Life) (x : ℤ × Bool × ℤ) : Except PyErr Life :=
  if x.2.1 = true ∧ ¬(2 ≤ x.2.2 ∧ x.2.2 ≤ 3) then t.set x.1 false
  else if x.2.1 = false ∧ x.2.2 = 3 then t.set x.1 true
  else .ok t

/-- The inner loop of one generation: apply the rule to every snapshot triple. -/
def runRules (t : Life) : List (ℤ × Bool × ℤ) → Except PyErr Life
  | [] => .ok t
  | x :: rest =>
    match applyRule t x with
    | .error e => .error e
    | .ok t' => runRules t' rest

/-- One generation of `Life.update`: snapshot the dirty set, clear it, then
apply the survival/birth rule to every snapshotted triple.  The Python `set`
is iterated in an unspecified order; the model enumerates it ascending. -/
def Life.gen (s : Life) : Except PyErr Life :=
  match snapList s (sortFinZ s.needs_update) with
  | .error e => .error e
  | .ok u => runRules { s with needs_update := ∅ } u

/-- `steps` generations, counted by fuel. -/
def Life.updateN (s : Life) : ℕ → Except PyErr Life
  | 0 => .ok s
  | n + 1 =>
    match s.gen with
    | .error e => .error e
    | .ok t => t.updateN n

/-- `Life.update(steps)`: `for _ in range(steps)` runs `max steps 0` times. -/
def Life.update (s : Life) (steps : ℤ) : Except PyErr Life :=
  s.updateN steps.toNat

/-- Python `str.strip()` (whitespace trimming on both ends). -/
def pyStrip (t : String) : String :=
  ⟨((t.toList.dropWhile Char.isWhitespace).reverse.dropWhile Char.isWhitespace).reverse⟩

/-- Splits a character list at newline characters. -/
def splitOnNl : List Char → List (List Char)
  | [] => [[]]
  | c :: rest =>
    if c = '\n' then [] :: splitOnNl rest
    else
      match splitOnNl rest with
      | [] => [[c]]
      | l :: ls => (c :: l) :: ls

/-- Python `str.splitlines()` restricted to `'\n'` separators (the only ones
occurring in the engine's patterns); the empty string yields no lines. -/
def pySplitlines (t : String) : List String :=
  if t.data = [] then [] else (splitOnNl t.data).map (fun l => ⟨l⟩)

/-- Inner loop of `Life.paste`: one pattern row. -/
def pasteLine (s : Life) (x yj : ℤ) : List (ℕ × Char) → Except PyErr Life
  | [] => .ok s
  | (i, ch) :: rest =>
    match s.set (s.cell (x + i) yj) (ch == 'o') with
    | .error e => .error e
    | .ok t => pasteLine t x yj rest

/-- Outer loop of `Life.paste`: enumerate stripped lines. -/
def pasteRows (s : Life) (x y : ℤ) : List (ℕ × String) → Except PyErr Life
  | [] => .ok s
  | (j, line) :: rest =>
    match pasteLine s x (y + j) ((pyStrip line).toList.enum) with
    | .error e => .error e
    | .ok t => pasteRows t x y rest

/-- `Life.paste(s, x, y)`. -/
def Life.paste (s : Life) (str : String) (x y : ℤ) : Except PyErr Life :=
  pasteRows s x y ((pySplitlines (pyStrip str)).enum)

/-- Extract the live array of a run result (empty on error). -/
def liveListOf (e : Except PyErr Life) : List Bool :=
  match e with
  | .ok g => g.live
  | .error _ => []

/-- Did the run succeed? -/
def okE {α : Type _} (e : Except PyErr α) : Bool :=
  match e with
  | .ok _ => true
  | .error _ => false

/-- States reachable through the public API (completed calls only):
construction, `set`, `update`, `paste`. -/
inductive Reach (w h : ℤ) : Life → Prop where
  | init : ∀ {s}, Life.init w h = .ok s → Reach w h s
  | set : ∀ {s s' p v}, Reach w h s → s.set p v = .ok s' → Reach w h s'
  | update : ∀ {s s' n}, Reach w h s → s.update n = .ok s' → Reach w h s'
  | paste : ∀ {s s' str x y}, Reach w h s → s.paste str x y = .ok s' →
      Reach w h s'

/-- Does integer index `i` address an element of a list of length `n`
under Python semantics? -/
def validIdx (n : ℕ) (i : ℤ) : Prop :=
  0 ≤ pyIdx n i ∧ pyIdx n i < n

instance (n : ℕ) (i : ℤ) : Decidable (validIdx n i) := by
  unfold validIdx; infer_instance

/-- The storage slot addressed by Python index `i` in a list of length `n`. -/
def inorm (n : ℕ) (i : ℤ) : ℕ :=
  (pyIdx n i).toNat

/-- Storage-cell count as a natural number. -/
def cellsN (w h : ℤ) : ℕ :=
  (cellsZ w h).toNat

/-- The number of live in-bounds cells among the 8 surrounding storage slots
of slot `k` (surrounding = the flat-index offsets the engine itself uses;
arithmetic neighbours falling outside storage are not counted). -/
def nbrCountSpec (s : Life) (k : ℕ) : ℤ :=
  ((neighbourhoodOf s.width).filter (fun off =>
      decide (0 ≤ (k : ℤ) + off) && decide ((k : ℤ) + off < (s.live.length : ℤ)) &&
      s.in_bounds.getD ((k : ℤ) + off).toNat false &&
      s.live.getD ((k : ℤ) + off).toNat false)).length

/-- The expected live array with exactly the cells at logical coordinates
`pts` alive. -/
def liveOnly (w h : ℤ) (pts : List (ℤ × ℤ)) : List Bool :=
  (List.range (cellsN w h)).map
    (fun i => decide (∃ q ∈ pts, cellIdx w q.1 q.2 = (i : ℤ)))

/-- Storage index `i` lies in the border ring of the padded grid:
padded row 0, padded row `height + 1`, padded column 0, or padded
column `width + 1`. -/
def borderRing (w h i : ℤ) : Prop :=
  0 ≤ i ∧ i < cellsZ w h ∧
    (i < w + 2 ∨ cellsZ w h - (w + 2) ≤ i ∨ i % (w + 2) = 0 ∨ i % (w + 2) = w + 1)

instance (w h i : ℤ) : Decidable (borderRing w h i) := by
  unfold borderRing; infer_instance

/-- Storage index `i` is an interior slot: the image of a logical
coordinate of the grid under the `cell` transform. -/
def interiorSlot (w h i : ℤ) : Prop :=
  ∃ x y : ℤ, 0 ≤ x ∧ x < w ∧ 0 ≤ y ∧ y < h ∧ i = cellIdx w x y

/-- Every cell of the board is dead. -/
def allDeadL (s : Life) : Prop :=
  ∀ k : ℕ, k < s.live.length → s.live.getD k false = false

instance (s : Life) : Decidable (allDeadL s) :=
  decidable_of_iff (∀ k ∈ List.range s.live.length, s.live.getD k false = false)
    ⟨fun H k hk => H k (List.mem_range.mpr hk),
     fun H k hk => H k (List.mem_range.mp hk)⟩

/-- The data-model invariant maintained by the engine: fixed dimensions and
array lengths, the construction-time neighbour-offset list, bounds on which
slots the (buggy) in-bounds mask marks true, well-formedness of the dirty
set, and the neighbour-count correctness property. -/
structure LifeInv (w h : ℤ) (s : Life) : Prop where
  hw : 1 ≤ w
  hh : 1 ≤ h
  wEq : s.width = w
  hEq : s.height = h
  liveLen : s.live.length = cellsN w h
  ibLen : s.in_bounds.length = cellsN w h
  nbLen : s.neighbours.length = cellsN w h
  nbhd : s.neighbourhood = neighbourhoodOf w
  ibBounds : ∀ k : ℕ, s.in_bounds.getD k false = true →
      w + 3 ≤ (k : ℤ) ∧ (k : ℤ) ≤ cellsZ w h - (w + 2)
  nuMem : ∀ e ∈ s.needs_update, validIdx (cellsN w h) e ∧
      s.in_bounds.getD (inorm (cellsN w h) e) false = true
  cnt : ∀ k : ℕ, k < cellsN w h → s.in_bounds.getD k false = true →
      s.neighbours.getD k 0 = nbrCountSpec s k

/-- In-bounds flag at slot `k` of a run result (`false` on error). -/
def ibAt (e : Except PyErr Life) (k : ℕ) : Bool :=
  match e with
  | .ok g => g.in_bounds.getD k false
  | .error _ => false

/-- Live flag at slot `k` of a run result (`false` on error). -/
def liveAt (e : Except PyErr Life) (k : ℕ) : Bool :=
  match e with
  | .ok g => g.live.getD k false
  | .error _ => false

/-- A fresh 20×20 board with the horizontal blinker (5,5),(6,5),(7,5). -/
def blinkerStart : Except PyErr Life :=
  (Life.init 20 20).bind (fun g =>
    (g.set (g.cell 5 5) true).bind (fun g =>
      (g.set (g.cell 6 5) true).bind (fun g =>
        g.set (g.cell 7 5) true)))

/-- The blinker board after one generation. -/
def blinkerRun1 : Except PyErr Life :=
  blinkerStart.bind (fun g => g.update 1)

/-- The blinker board after two generations. -/
def blinkerRun2 : Except PyErr Life :=
  blinkerRun1.bind (fun g => g.update 1)

instance {α : Type _} [DecidableEq α] : DecidableEq (Except PyErr α) := fun a b =>
  match a, b with
  | .ok x, .ok y =>
    if h : x = y then .isTrue (by rw [h]) else .isFalse (fun hc => h (Except.ok.inj hc))
  | .error x, .error y =>
    if h : x = y then .isTrue (by rw [h]) else .isFalse (fun hc => h (Except.error.inj hc))
  | .ok _, .error _ => .isFalse (fun hc => Except.noConfusion hc)
  | .error _, .ok _ => .isFalse (fun hc => Except.noConfusion hc)

/-- Extracts the engine from a run result (defaulting on error). -/
def getLife (e : Except PyErr Life) : Life :=
  match e with
  | .ok g => g
  | .error _ => default

/-- A fresh 1×1 engine. -/
def g11 : Life := getLife (Life.init 1 1)

/-- The 1×1 engine after making the single logical cell alive. -/
def g11a : Life := getLife (g11.set 4 true)

/-- The 1×1 engine after making the cell alive and dead again:
all-dead with a non-empty dirty set. -/
def g11b : Life := getLife (g11a.set 4 false)

/-- A fresh 3×3 engine. -/
def g33 : Life := getLife (Life.init 3 3)

/-- One generation with an explicit enumeration order `l` of the dirty set:
snapshot along `l`, clear the dirty set, then apply the rule to each triple.
`Life.gen` is `genWith` at the ascending enumeration. -/
def genWith (s : Life) (l : List ℤ) : Except PyErr Life :=
  match snapList s l with
  | .error e => .error e
  | .ok u => runRules { s with needs_update := ∅ } u

/-- 1×1 engine after `set(-5, True)`: the centre slot set live through its
negative alias. -/
def aliA : Life := getLife (g11.set (-5) true)

/-- … then `set(4, False)`: the same slot cleared through the positive index,
leaving both aliases `-5` and `4` in the dirty set. -/
def aliB : Life := getLife (aliA.set 4 false)

/-- … then `set(-5, True)` again: centre live, dirty set
`{-5, -4, -3, 4, 5, 6}` containing the aliased pair `-5`/`4`. -/
def aliC : Life := getLife (aliB.set (-5) true)

/-- The filter picking the offsets whose target slot passes the in-bounds test. -/
def maskPass (ib : List Bool) (p : ℤ) (off : ℤ) : Bool :=
  ib.getD (inorm ib.length (off + p)) false

/-! ## Python list access: basic lemmas -/

theorem validIdx_iff {n : ℕ} {i : ℤ} :
    validIdx n i ↔ (0 ≤ i ∧ i < n) ∨ (-(n : ℤ) ≤ i ∧ i < 0) := by
  unfold validIdx pyIdx
  split <;> omega

theorem validIdx_of_nonneg {n : ℕ} {i : ℤ} (h0 : 0 ≤ i) :
    validIdx n i ↔ i < n := by
  rw [validIdx_iff]; omega

theorem inorm_of_nonneg {n : ℕ} {i : ℤ} (h0 : 0 ≤ i) :
    inorm n i = i.toNat := by
  unfold inorm pyIdx
  split <;> [omega; rfl]

theorem inorm_lt {n : ℕ} {i : ℤ} (h : validIdx n i) : inorm n i < n := by
  unfold validIdx at h
  unfold inorm
  omega

theorem inorm_coe {n : ℕ} {i : ℤ} (h : validIdx n i) :
    (inorm n i : ℤ) = pyIdx n i := by
  unfold validIdx at h
  unfold inorm
  omega

theorem pyIdx_of_nonneg {n : ℕ} {i : ℤ} (h0 : 0 ≤ i) : pyIdx n i = i := by
  unfold pyIdx; omega

theorem pyIdx_of_neg {n : ℕ} {i : ℤ} (h0 : i < 0) : pyIdx n i = i + n := by
  unfold pyIdx; omega

theorem pyGet_eq_ok {α : Type _} {l : List α} {i : ℤ} {a : α} (d : α) :
    pyGet l i = .ok a ↔ validIdx l.length i ∧ a = l.getD (inorm l.length i) d := by
  unfold pyGet
  split
  · rename_i h
    have hv : validIdx l.length i := h
    have hlt : inorm l.length i < l.length := inorm_lt hv
    simp only [Except.ok.injEq]
    rw [List.getD_eq_getElem?_getD, List.getElem?_eq_getElem hlt]
    constructor
    · rintro rfl
      exact ⟨hv, by simp [List.get_eq_getElem, inorm]⟩
    · rintro ⟨-, rfl⟩
      simp [List.get_eq_getElem, inorm]
  · rename_i h
    have : ¬ validIdx l.length i := h
    simp [this]

theorem pyGet_eq_error {α : Type _} {l : List α} {i : ℤ} {e : PyErr} :
    pyGet l i = .error e ↔ ¬ validIdx l.length i ∧ e = .indexError := by
  unfold pyGet
  split
  · rename_i h
    have hv : validIdx l.length i := h
    simp [hv]
  · rename_i h
    have : ¬ validIdx l.length i := h
    simp [this, eq_comm]

theorem pyGet_ok_of_valid {α : Type _} {l : List α} {i : ℤ}
    (h : validIdx l.length i) (d : α) :
    pyGet l i = .ok (l.getD (inorm l.length i) d) :=
  (pyGet_eq_ok d).mpr ⟨h, rfl⟩

theorem pySet_eq_ok {α : Type _} {l l' : List α} {i : ℤ} {a : α} :
    pySet l i a = .ok l' ↔ validIdx l.length i ∧ l' = l.set (inorm l.length i) a := by
  unfold pySet
  split
  · rename_i h
    have hv : validIdx l.length i := h
    simp only [Except.ok.injEq]
    unfold inorm
    constructor
    · rintro rfl; exact ⟨hv, rfl⟩
    · rintro ⟨-, rfl⟩; rfl
  · rename_i h
    have : ¬ validIdx l.length i := h
    simp [this]

theorem pySet_eq_error {α : Type _} {l : List α} {i : ℤ} {a : α} {e : PyErr} :
    pySet l i a = .error e ↔ ¬ validIdx l.length i ∧ e = .indexError := by
  unfold pySet
  split
  · rename_i h
    have hv : validIdx l.length i := h
    simp [hv]
  · rename_i h
    have : ¬ validIdx l.length i := h
    simp [this, eq_comm]

theorem getD_set_general {α : Type _} (l : List α) (i k : ℕ) (a d : α) :
    (l.set i a).getD k d = if i = k ∧ i < l.length then a else l.getD k d := by
  rcases Decidable.em (i = k) with rfl | hne
  · by_cases hl : i < l.length
    · simp [List.getD_eq_getElem?_getD, List.getElem?_set_self hl, hl]
    · rw [List.set_eq_of_length_le (by omega)]
      simp [hl]
  · simp [List.getD_eq_getElem?_getD, List.getElem?_set_ne hne, hne]

/-! ## The neighbour-offset list -/

theorem neighbourhoodOf_eq (w : ℤ) :
    neighbourhoodOf w =
      [-(w + 2) - 1, -1, (w + 2) - 1, -(w + 2), w + 2, -(w + 2) + 1, 1, w + 2 + 1] := by
  simp only [neighbourhoodOf, product2]
  norm_num [List.flatMap_cons, List.filter, List.map]
  ring_nf
  norm_num

theorem mem_neighbourhoodOf {w z : ℤ} :
    z ∈ neighbourhoodOf w ↔
      z = -(w + 2) - 1 ∨ z = -1 ∨ z = (w + 2) - 1 ∨ z = -(w + 2) ∨
      z = w + 2 ∨ z = -(w + 2) + 1 ∨ z = 1 ∨ z = w + 2 + 1 := by
  rw [neighbourhoodOf_eq]
  simp

theorem neighbourhoodOf_nodup {w : ℤ} (hw : 1 ≤ w) :
    (neighbourhoodOf w).Nodup := by
  rw [neighbourhoodOf_eq]
  simp only [List.nodup_cons, List.mem_cons, List.mem_singleton, List.not_mem_nil,
    List.nodup_nil, and_true, not_or, not_false_iff]
  omega

theorem neighbourhoodOf_symm {w z : ℤ} :
    z ∈ neighbourhoodOf w → -z ∈ neighbourhoodOf w := by
  rw [mem_neighbourhoodOf, mem_neighbourhoodOf]
  omega

theorem neighbourhoodOf_abs {w z : ℤ} (hw : 1 ≤ w) (hz : z ∈ neighbourhoodOf w) :
    z ≠ 0 ∧ -(w + 3) ≤ z ∧ z ≤ w + 3 := by
  rw [mem_neighbourhoodOf] at hz
  omega

/-! ## The neighbour-adjustment loop -/

theorem adjLoop_preserves {offs : List ℤ} {t t' : Life} {p a : ℤ}
    (h : adjLoop t p a offs = .ok t') :
    t'.width = t.width ∧ t'.height = t.height ∧ t'.live = t.live ∧
    t'.in_bounds = t.in_bounds ∧ t'.neighbourhood = t.neighbourhood ∧
    t'.neighbours.length = t.neighbours.length := by
  induction offs generalizing t with
  | nil =>
    cases h
    exact ⟨rfl, rfl, rfl, rfl, rfl, rfl⟩
  | cons off rest ih =>
    unfold adjLoop at h
    cases hg : pyGet t.in_bounds (off + p) with
    | error e => rw [hg] at h; exact Except.noConfusion h
    | ok b =>
      simp only [hg] at h
      cases b with
      | false =>
        rw [if_neg Bool.false_ne_true] at h
        exact ih h
      | true =>
        rw [if_pos rfl] at h
        cases hc : pyGet t.neighbours (off + p) with
        | error e => rw [hc] at h; exact Except.noConfusion h
        | ok cur =>
          simp only [hc] at h
          cases hs : pySet t.neighbours (off + p) (cur + a) with
          | error e => rw [hs] at h; exact Except.noConfusion h
          | ok nb =>
            simp only [hs] at h
            obtain ⟨h1, h2, h3, h4, h5, h6⟩ := ih h
            obtain ⟨-, hnb⟩ := pySet_eq_ok.mp hs
            refine ⟨h1, h2, h3, h4, h5, ?_⟩
            rw [h6, hnb]
            simp [List.length_set]

theorem adjLoop_ok_valid {offs : List ℤ} {t t' : Life} {p a : ℤ}
    (h : adjLoop t p a offs = .ok t') :
    ∀ off ∈ offs, validIdx t.in_bounds.length (off + p) := by
  induction offs generalizing t with
  | nil => intro off hoff; cases hoff
  | cons off rest ih =>
    intro o ho
    unfold adjLoop at h
    cases hg : pyGet t.in_bounds (off + p) with
    | error e => rw [hg] at h; exact Except.noConfusion h
    | ok b =>
      simp only [hg] at h
      have hvhead : validIdx t.in_bounds.length (off + p) :=
        ((pyGet_eq_ok false).mp hg).1
      rcases List.mem_cons.mp ho with rfl | ho'
      · exact hvhead
      · cases b with
        | false =>
          rw [if_neg Bool.false_ne_true] at h
          exact ih h o ho'
        | true =>
          rw [if_pos rfl] at h
          cases hc : pyGet t.neighbours (off + p) with
          | error e => rw [hc] at h; exact Except.noConfusion h
          | ok cur =>
            simp only [hc] at h
            cases hs : pySet t.neighbours (off + p) (cur + a) with
            | error e => rw [hs] at h; exact Except.noConfusion h
            | ok nb =>
              simp only [hs] at h
              exact ih h o ho'

theorem adjLoop_char {offs : List ℤ} {t : Life} {p a : ℤ}
    (hlen : t.neighbours.length = t.in_bounds.length)
    (hv : ∀ off ∈ offs, validIdx t.in_bounds.length (off + p)) :
    ∃ t', adjLoop t p a offs = .ok t' ∧
      (∀ k : ℕ, t'.neighbours.getD k 0 = t.neighbours.getD k 0 +
        a * ((offs.filter (fun off =>
          (inorm t.in_bounds.length (off + p) == k) && maskPass t.in_bounds p off)).length : ℤ)) ∧
      t'.needs_update = t.needs_update ∪
        ((offs.filter (maskPass t.in_bounds p)).map (fun off => off + p)).toFinset := by
  induction offs generalizing t with
  | nil =>
    exact ⟨t, rfl, fun k => by simp [List.filter], by simp [List.filter]⟩
  | cons off rest ih =>
    have hvh : validIdx t.in_bounds.length (off + p) := hv off (List.mem_cons_self _ _)
    have hga : pyGet t.in_bounds (off + p) =
        .ok (t.in_bounds.getD (inorm t.in_bounds.length (off + p)) false) :=
      pyGet_ok_of_valid hvh false
    by_cases hb : t.in_bounds.getD (inorm t.in_bounds.length (off + p)) false = true
    · -- the in-bounds test passes: this neighbour is adjusted
      have hvn : validIdx t.neighbours.length (off + p) := by
        rw [hlen]; exact hvh
      have hnormeq : inorm t.neighbours.length (off + p) =
          inorm t.in_bounds.length (off + p) := by rw [hlen]
      have hgc : pyGet t.neighbours (off + p) =
          .ok (t.neighbours.getD (inorm t.neighbours.length (off + p)) 0) :=
        pyGet_ok_of_valid hvn 0
      have hss : pySet t.neighbours (off + p)
          (t.neighbours.getD (inorm t.neighbours.length (off + p)) 0 + a) =
          .ok (t.neighbours.set (inorm t.neighbours.length (off + p))
            (t.neighbours.getD (inorm t.neighbours.length (off + p)) 0 + a)) :=
        pySet_eq_ok.mpr ⟨hvn, rfl⟩
      obtain ⟨t', hrun, hnbr, hnu⟩ := ih
        (t := { t with
          neighbours := t.neighbours.set (inorm t.neighbours.length (off + p))
            (t.neighbours.getD (inorm t.neighbours.length (off + p)) 0 + a),
          needs_update := insert (off + p) t.needs_update })
        (by simpa using hlen)
        (fun o ho => hv o (List.mem_cons_of_mem _ ho))
      dsimp only at hnbr hnu
      rw [hnormeq] at hnbr
      refine ⟨t', ?_, ?_, ?_⟩
      · unfold adjLoop
        simp only [hga, hb, eq_self_iff_true, if_true, hgc, hss]
        exact hrun
      · intro k
        rw [hnbr k, List.filter_cons]
        have hmp : maskPass t.in_bounds p off = true := hb
        simp only [hmp, Bool.and_true]
        rw [getD_set_general]
        by_cases hk : inorm t.in_bounds.length (off + p) = k
        · have hqlt : inorm t.in_bounds.length (off + p) < t.neighbours.length := by
            rw [hlen]; exact inorm_lt hvh
          rw [if_pos ⟨hk, hqlt⟩, hk]
          rw [if_pos (by simp : (k == k) = true)]
          simp only [List.length_cons]
          push_cast
          ring
        · rw [if_neg (fun hc => hk hc.1)]
          rw [if_neg (by simp [hk])]
      · rw [hnu]
        have hmp : maskPass t.in_bounds p off = true := hb
        rw [List.filter_cons, if_pos hmp]
        simp only [List.map_cons, List.toFinset_cons]
        rw [Finset.insert_union, Finset.union_insert]
    · -- the in-bounds test fails: this neighbour is skipped
      have hb' : t.in_bounds.getD (inorm t.in_bounds.length (off + p)) false = false := by
        revert hb; cases t.in_bounds.getD (inorm t.in_bounds.length (off + p)) false <;> simp
      obtain ⟨t', hrun, hnbr, hnu⟩ := ih hlen (fun o ho => hv o (List.mem_cons_of_mem _ ho))
      refine ⟨t', ?_, ?_, ?_⟩
      · unfold adjLoop
        rw [hga, hb']
        simp only [Bool.false_eq_true, if_false]
        exact hrun
      · intro k
        rw [hnbr k, List.filter_cons]
        have hmp : maskPass t.in_bounds p off = false := hb'
        rw [if_neg (by simp [hmp])]
      · rw [hnu, List.filter_cons]
        have hmp : maskPass t.in_bounds p off = false := hb'
        rw [if_neg (by simp [hmp])]

/-! ## `Life.set`: characterisation -/

theorem set_ok_cases {s t : Life} {p : ℤ} {v : Bool}
    (h : s.set p v = .ok t) :
    validIdx s.live.length p ∧
    ((t = s ∧ (s.live.getD (inorm s.live.length p) false = v ∨
        (validIdx s.in_bounds.length p ∧
         s.in_bounds.getD (inorm s.in_bounds.length p) false = false))) ∨
     (s.live.getD (inorm s.live.length p) false = !v ∧
      validIdx s.in_bounds.length p ∧
      s.in_bounds.getD (inorm s.in_bounds.length p) false = true ∧
      adjLoop { s with live := s.live.set (inorm s.live.length p) v,
                       needs_update := insert p s.needs_update }
        p (if v then 1 else -1) s.neighbourhood = .ok t)) := by
  unfold Life.set at h
  cases hg : pyGet s.live p with
  | error e => rw [hg] at h; exact Except.noConfusion h
  | ok lv =>
    simp only [hg] at h
    obtain ⟨hvl, hlv⟩ := (pyGet_eq_ok false).mp hg
    refine ⟨hvl, ?_⟩
    by_cases hveq : v = lv
    · rw [if_pos hveq] at h
      cases h
      exact Or.inl ⟨rfl, Or.inl (by rw [← hlv, hveq])⟩
    · rw [if_neg hveq] at h
      cases hgb : pyGet s.in_bounds p with
      | error e => rw [hgb] at h; exact Except.noConfusion h
      | ok ib =>
        simp only [hgb] at h
        obtain ⟨hvb, hib⟩ := (pyGet_eq_ok false).mp hgb
        cases ib with
        | false =>
          rw [if_neg Bool.false_ne_true] at h
          cases h
          exact Or.inl ⟨rfl, Or.inr ⟨hvb, hib.symm⟩⟩
        | true =>
          rw [if_pos rfl] at h
          have hps : pySet s.live p v = .ok (s.live.set (inorm s.live.length p) v) :=
            pySet_eq_ok.mpr ⟨hvl, rfl⟩
          simp only [hps] at h
          refine Or.inr ⟨?_, hvb, hib.symm, h⟩
          rw [← hlv]
          cases lv <;> cases v <;> first | rfl | exact absurd rfl hveq

theorem set_preserves {s t : Life} {p : ℤ} {v : Bool}
    (h : s.set p v = .ok t) :
    t.width = s.width ∧ t.height = s.height ∧ t.in_bounds = s.in_bounds ∧
    t.neighbourhood = s.neighbourhood ∧ t.live.length = s.live.length ∧
    t.neighbours.length = s.neighbours.length := by
  obtain ⟨-, hcase⟩ := set_ok_cases h
  rcases hcase with ⟨rfl, -⟩ | ⟨-, -, -, hadj⟩
  · exact ⟨rfl, rfl, rfl, rfl, rfl, rfl⟩
  · obtain ⟨h1, h2, h3, h4, h5, h6⟩ := adjLoop_preserves hadj
    refine ⟨h1, h2, h4, h5, ?_, h6⟩
    rw [h3]
    simp [List.length_set]

/-- After a completed mutating `set`, the live array records the write;
after a no-op it is unchanged — in both cases `t.live` is determined. -/
theorem set_ok_live {s t : Life} {p : ℤ} {v : Bool}
    (h : s.set p v = .ok t) :
    t.live = s.live ∨
      (validIdx s.live.length p ∧ t.live = s.live.set (inorm s.live.length p) v) := by
  obtain ⟨hvl, hcase⟩ := set_ok_cases h
  rcases hcase with ⟨rfl, -⟩ | ⟨-, -, -, hadj⟩
  · exact Or.inl rfl
  · obtain ⟨-, -, h3, -, -, -⟩ := adjLoop_preserves hadj
    exact Or.inr ⟨hvl, h3⟩

/-- **C7** Idempotence of `set`: for every engine state, storage index and
value, calling `set(i, v)` twice in succession produces exactly the same
result (state and error behaviour) as calling it once; the second call
changes nothing. -/
theorem set_idempotent (s : Life) (p : ℤ) (v : Bool) :
    (s.set p v).bind (fun t => t.set p v) = s.set p v := by
  cases hs : s.set p v with
  | error e => rfl
  | ok t =>
    show t.set p v = .ok t
    obtain ⟨hvl, hcase⟩ := set_ok_cases hs
    rcases hcase with ⟨rfl, -⟩ | ⟨-, -, -, hadj⟩
    · exact hs
    · obtain ⟨-, -, hlive, -, -, -⟩ := adjLoop_preserves hadj
      have hlive' : t.live = s.live.set (inorm s.live.length p) v := hlive
      have hlen' : t.live.length = s.live.length := by
        rw [hlive']; simp [List.length_set]
      have hvl' : validIdx t.live.length p := by rw [hlen']; exact hvl
      have hnorm : inorm t.live.length p = inorm s.live.length p := by
        rw [hlen']
      have hget : pyGet t.live p = .ok v := by
        rw [pyGet_ok_of_valid hvl' false]
        congr 1
        rw [hlive']
        simp only [List.length_set]
        rw [getD_set_general]
        exact if_pos ⟨rfl, inorm_lt hvl⟩
      unfold Life.set
      simp only [hget, eq_self_iff_true, if_true]

/-- **C2** (code bug) Border immutability fails in the code: on a 1×1 grid,
storage slot 5 lies in the border ring (rightmost padded column), yet the
construction marks it in-bounds, and `set(5, True)` raises `IndexError`
(after partially mutating the state) instead of being a silent no-op. -/
theorem border_set_raises :
    borderRing 1 1 5 ∧ ibAt (Life.init 1 1) 5 = true ∧
    (Life.init 1 1).bind (fun g => g.set 5 true) = .error .indexError :=
  ⟨by decide, by rfl, by rfl⟩

/-- **C3** (code bug) The construction mask is wrong: on a 2×2 grid the
border-ring slots 11 (rightmost column, padded row 2) and 12 (bottom-left
corner of the padded grid) are marked in-bounds by `__init__`. -/
theorem mask_marks_border_in_bounds :
    borderRing 2 2 11 ∧ borderRing 2 2 12 ∧
    ibAt (Life.init 2 2) 11 = true ∧ ibAt (Life.init 2 2) 12 = true :=
  ⟨by decide, by decide, by rfl, by rfl⟩

/-- **C5** (counterexample) Construction does not fail for non-positive
dimensions: `Life(0, 5)` succeeds, refuting the claim that construction
raises `InvalidDimension` whenever `width ≤ 0`. -/
theorem init_zero_width_succeeds : okE (Life.init 0 5) = true := by rfl

/-- **C5** (amended) Construction performs no dimension validation and no
`InvalidDimension` error exists in the code: `Life(0, 5)` constructs an
engine, while `Life(-5, 3)` fails with a plain `IndexError` from the
border-mask initialisation loops. -/
theorem init_no_dimension_check :
    okE (Life.init 0 5) = true ∧ Life.init (-5) 3 = .error .indexError :=
  ⟨by rfl, by rfl⟩

/-- **C6** (counterexample) Paste clipping fails: on a 2×2 grid,
`paste("o", 2, 1)` targets the out-of-grid coordinate (2,1), whose storage
slot 11 the buggy mask marks in-bounds, and the call raises `IndexError`
instead of silently ignoring the out-of-grid character. -/
theorem paste_out_of_grid_raises :
    (Life.init 2 2).bind (fun g => g.paste "o" 2 1) = .error .indexError := by
  rfl

/-- **C6** (amended) Paste only clips characters whose target storage slot
is border-masked: `paste("ooo", 0, 0)` on a 2×2 grid ignores the character
at (2,0) and sets exactly (0,0),(1,0); a character overshooting further
wraps to a different in-grid cell — the fifth character of
`paste("ooooo", 0, 0)`, at out-of-grid coordinate (4,0), silently sets
interior slot 9, which is cell (0,1). -/
theorem paste_clipping_partial :
    liveListOf ((Life.init 2 2).bind (fun g => g.paste "ooo" 0 0)) =
      liveOnly 2 2 [(0, 0), (1, 0)] ∧
    liveAt ((Life.init 2 2).bind (fun g => g.paste "ooooo" 0 0)) 9 = true ∧
    cellIdx 2 0 1 = 9 :=
  ⟨by decide, by rfl, by decide⟩

set_option maxRecDepth 100000 in
/-- **C4** Blinker oscillator has period 2: on a 20×20 grid starting from
the all-dead state, setting exactly (5,5),(6,5),(7,5) alive and updating
once yields exactly the live cells (6,4),(6,5),(6,6); a second update
restores exactly the original three horizontal cells. -/
theorem blinker_period_two :
    liveListOf blinkerStart = liveOnly 20 20 [(5, 5), (6, 5), (7, 5)] ∧
    liveListOf blinkerRun1 = liveOnly 20 20 [(6, 4), (6, 5), (6, 6)] ∧
    liveListOf blinkerRun2 = liveOnly 20 20 [(5, 5), (6, 5), (7, 5)] :=
  ⟨by decide, by decide, by decide⟩

/-! ## Construction: the border-mask loops -/

theorem mem_rangeZ {n i : ℤ} : i ∈ rangeZ n ↔ 0 ≤ i ∧ i < n := by
  unfold rangeZ
  simp only [List.mem_map, List.mem_range]
  constructor
  · rintro ⟨k, hk, rfl⟩
    omega
  · rintro ⟨h0, hn⟩
    exact ⟨i.toNat, by omega, by omega⟩

theorem maskLoop1_ok_true {is : List ℤ} {l : List Bool}
    (hv : ∀ i ∈ is, validIdx l.length i ∧ validIdx l.length (-i)) :
    ∃ l', maskLoop1 l is = .ok l' ∧ l'.length = l.length ∧
      ∀ k : ℕ, l'.getD k false = true →
        l.getD k false = true ∧
        ∀ i ∈ is, inorm l.length i ≠ k ∧ inorm l.length (-i) ≠ k := by
  induction is generalizing l with
  | nil =>
    exact ⟨l, rfl, rfl, fun k hk => ⟨hk, fun i hi => absurd hi (List.not_mem_nil i)⟩⟩
  | cons i rest ih =>
    obtain ⟨hvi, hvni⟩ := hv i (List.mem_cons_self _ _)
    have hs1 : pySet l i false = .ok (l.set (inorm l.length i) false) :=
      pySet_eq_ok.mpr ⟨hvi, rfl⟩
    have hlen1 : (l.set (inorm l.length i) false).length = l.length := by
      simp [List.length_set]
    have hvni' : validIdx (l.set (inorm l.length i) false).length (-i) := by
      rw [hlen1]; exact hvni
    have hs2 : pySet (l.set (inorm l.length i) false) (-i) false =
        .ok ((l.set (inorm l.length i) false).set (inorm l.length (-i)) false) := by
      refine pySet_eq_ok.mpr ⟨hvni', ?_⟩
      rw [show inorm (l.set (inorm l.length i) false).length (-i) =
        inorm l.length (-i) by rw [hlen1]]
    have hlen2 : ((l.set (inorm l.length i) false).set (inorm l.length (-i)) false).length
        = l.length := by
      simp [List.length_set]
    obtain ⟨l', hrun, hlen', hchar⟩ := ih
      (l := (l.set (inorm l.length i) false).set (inorm l.length (-i)) false)
      (by rw [hlen2]; exact fun o ho => hv o (List.mem_cons_of_mem _ ho))
    refine ⟨l', ?_, by rw [hlen', hlen2], ?_⟩
    · unfold maskLoop1
      simp only [hs1, hs2]
      exact hrun
    · intro k hk
      obtain ⟨hk2, hfresh⟩ := hchar k hk
      rw [hlen2] at hfresh
      rw [getD_set_general, getD_set_general] at hk2
      have hn1 : inorm l.length i < l.length := inorm_lt hvi
      have hn2 : inorm l.length (-i) < l.length := inorm_lt hvni
      by_cases e2 : inorm l.length (-i) = k
      · rw [if_pos ⟨e2, by rw [hlen1]; exact e2 ▸ hn2⟩] at hk2
        exact absurd hk2 (by simp)
      · rw [if_neg (fun hc => e2 hc.1)] at hk2
        by_cases e1 : inorm l.length i = k
        · rw [if_pos ⟨e1, e1 ▸ hn1⟩] at hk2
          exact absurd hk2 (by simp)
        · rw [if_neg (fun hc => e1 hc.1)] at hk2
          refine ⟨hk2, fun o ho => ?_⟩
          rcases List.mem_cons.mp ho with rfl | ho'
          · exact ⟨e1, e2⟩
          · exact hfresh o ho'

theorem maskLoop2_ok_true {js : List ℤ} {W : ℤ} {l : List Bool}
    (hv : ∀ j ∈ js, validIdx l.length ((j + 1) * W - 1) ∧ validIdx l.length ((j + 1) * W)) :
    ∃ l', maskLoop2 W l js = .ok l' ∧ l'.length = l.length ∧
      ∀ k : ℕ, l'.getD k false = true →
        l.getD k false = true ∧
        ∀ j ∈ js, inorm l.length ((j + 1) * W - 1) ≠ k ∧ inorm l.length ((j + 1) * W) ≠ k := by
  induction js generalizing l with
  | nil =>
    exact ⟨l, rfl, rfl, fun k hk => ⟨hk, fun j hj => absurd hj (List.not_mem_nil j)⟩⟩
  | cons j rest ih =>
    obtain ⟨hv1, hv2⟩ := hv j (List.mem_cons_self _ _)
    have hs1 : pySet l ((j + 1) * W - 1) false =
        .ok (l.set (inorm l.length ((j + 1) * W - 1)) false) :=
      pySet_eq_ok.mpr ⟨hv1, rfl⟩
    have hlen1 : (l.set (inorm l.length ((j + 1) * W - 1)) false).length = l.length := by
      simp [List.length_set]
    have hv2' : validIdx (l.set (inorm l.length ((j + 1) * W - 1)) false).length
        ((j + 1) * W) := by
      rw [hlen1]; exact hv2
    have hs2 : pySet (l.set (inorm l.length ((j + 1) * W - 1)) false) ((j + 1) * W) false =
        .ok ((l.set (inorm l.length ((j + 1) * W - 1)) false).set
          (inorm l.length ((j + 1) * W)) false) := by
      refine pySet_eq_ok.mpr ⟨hv2', ?_⟩
      rw [show inorm (l.set (inorm l.length ((j + 1) * W - 1)) false).length ((j + 1) * W) =
        inorm l.length ((j + 1) * W) by rw [hlen1]]
    have hlen2 : ((l.set (inorm l.length ((j + 1) * W - 1)) false).set
        (inorm l.length ((j + 1) * W)) false).length = l.length := by
      simp [List.length_set]
    obtain ⟨l', hrun, hlen', hchar⟩ := ih
      (l := (l.set (inorm l.length ((j + 1) * W - 1)) false).set
        (inorm l.length ((j + 1) * W)) false)
      (by rw [hlen2]; exact fun o ho => hv o (List.mem_cons_of_mem _ ho))
    refine ⟨l', ?_, by rw [hlen', hlen2], ?_⟩
    · unfold maskLoop2
      simp only [hs1, hs2]
      exact hrun
    · intro k hk
      obtain ⟨hk2, hfresh⟩ := hchar k hk
      rw [hlen2] at hfresh
      rw [getD_set_general, getD_set_general] at hk2
      have hn1 : inorm l.length ((j + 1) * W - 1) < l.length := inorm_lt hv1
      have hn2 : inorm l.length ((j + 1) * W) < l.length := inorm_lt hv2
      by_cases e2 : inorm l.length ((j + 1) * W) = k
      · rw [if_pos ⟨e2, by rw [hlen1]; exact e2 ▸ hn2⟩] at hk2
        exact absurd hk2 (by simp)
      · rw [if_neg (fun hc => e2 hc.1)] at hk2
        by_cases e1 : inorm l.length ((j + 1) * W - 1) = k
        · rw [if_pos ⟨e1, e1 ▸ hn1⟩] at hk2
          exact absurd hk2 (by simp)
        · rw [if_neg (fun hc => e1 hc.1)] at hk2
          refine ⟨hk2, fun o ho => ?_⟩
          rcases List.mem_cons.mp ho with rfl | ho'
          · exact ⟨e1, e2⟩
          · exact hfresh o ho'

theorem getD_replicate' {α : Type _} (a d : α) (n k : ℕ) :
    (List.replicate n a).getD k d = if k < n then a else d := by
  rw [List.getD_eq_getElem?_getD, List.getElem?_replicate]
  by_cases h : k < n <;> simp [h]

theorem cellsN_cast {w h : ℤ} (hw : 1 ≤ w) (hh : 1 ≤ h) :
    (cellsN w h : ℤ) = cellsZ w h := by
  have hpos : 0 < cellsZ w h := mul_pos (by omega) (by omega)
  unfold cellsN
  omega

theorem cellsZ_big {w h : ℤ} (hw : 1 ≤ w) (hh : 1 ≤ h) :
    3 * (w + 2) ≤ cellsZ w h := by
  unfold cellsZ
  have := mul_le_mul_of_nonneg_left (by omega : (3 : ℤ) ≤ h + 2) (by omega : (0 : ℤ) ≤ w + 2)
  linarith

theorem init_ok {w h : ℤ} (hw : 1 ≤ w) (hh : 1 ≤ h) :
    ∃ s, Life.init w h = .ok s ∧ s.width = w ∧ s.height = h ∧
      s.live = List.replicate (cellsN w h) false ∧
      s.neighbours = List.replicate (cellsN w h) (0 : ℤ) ∧
      s.neighbourhood = neighbourhoodOf w ∧ s.needs_update = ∅ ∧
      s.in_bounds.length = cellsN w h ∧
      (∀ k : ℕ, s.in_bounds.getD k false = true →
        w + 3 ≤ (k : ℤ) ∧ (k : ℤ) ≤ cellsZ w h - (w + 2)) := by
  have hcast : (cellsN w h : ℤ) = cellsZ w h := cellsN_cast hw hh
  have hbig : 3 * (w + 2) ≤ cellsZ w h := cellsZ_big hw hh
  have hlen0 : (List.replicate (cellsN w h) true).length = cellsN w h :=
    List.length_replicate _ _
  have hv1 : ∀ i ∈ rangeZ (w + 2),
      validIdx (List.replicate (cellsN w h) true).length i ∧
      validIdx (List.replicate (cellsN w h) true).length (-i) := by
    intro i hi
    rw [mem_rangeZ] at hi
    rw [hlen0]
    constructor <;> (rw [validIdx_iff] ; omega)
  obtain ⟨ib₁, hrun1, hlen1, hchar1⟩ := maskLoop1_ok_true hv1
  rw [hlen0] at hlen1 hchar1
  have hv2 : ∀ j ∈ rangeZ h,
      validIdx ib₁.length ((j + 1) * (w + 2) - 1) ∧
      validIdx ib₁.length ((j + 1) * (w + 2)) := by
    intro j hj
    rw [mem_rangeZ] at hj
    rw [hlen1]
    have h1 : 0 < (j + 1) * (w + 2) := mul_pos (by omega) (by omega)
    have h2 : (j + 1) * (w + 2) ≤ h * (w + 2) := by
      apply mul_le_mul_of_nonneg_right (by omega) (by omega)
    have h3 : h * (w + 2) + 2 * (w + 2) = cellsZ w h := by unfold cellsZ; ring
    constructor <;> (rw [validIdx_iff] ; omega)
  obtain ⟨ib₂, hrun2, hlen2, hchar2⟩ := maskLoop2_ok_true hv2
  rw [hlen1] at hlen2 hchar2
  refine ⟨{ width := w, height := h,
            live := List.replicate (cellsN w h) false,
            in_bounds := ib₂,
            neighbours := List.replicate (cellsN w h) 0,
            neighbourhood := neighbourhoodOf w,
            needs_update := ∅ }, ?_, rfl, rfl, rfl, rfl, rfl, rfl, hlen2, ?_⟩
  · show Life.init w h = _
    unfold Life.init
    have hNeq : (cellsZ w h).toNat = cellsN w h := rfl
    rw [hNeq]
    simp only [hrun1, hrun2]
  · intro k hk
    obtain ⟨hk1, hfresh2⟩ := hchar2 k hk
    obtain ⟨hk0, hfresh1⟩ := hchar1 k hk1
    have hklt : k < cellsN w h := by
      rw [getD_replicate'] at hk0
      by_contra hc
      rw [if_neg (by omega)] at hk0
      exact Bool.false_ne_true hk0
    constructor
    · -- lower bound: slots 0..w+2 are all written
      by_contra hc
      push_neg at hc
      by_cases hcW : (k : ℤ) < w + 2
      · -- written by the first loop at index k
        have hmem : (k : ℤ) ∈ rangeZ (w + 2) := mem_rangeZ.mpr ⟨by omega, hcW⟩
        have := (hfresh1 (k : ℤ) hmem).1
        apply this
        rw [inorm_of_nonneg (by omega)]
        omega
      · -- k = w + 2: written by the second loop at j = 0
        have hkW : (k : ℤ) = w + 2 := by omega
        have hmem : (0 : ℤ) ∈ rangeZ h := mem_rangeZ.mpr ⟨le_refl 0, by omega⟩
        have := (hfresh2 0 hmem).2
        apply this
        rw [inorm_of_nonneg (by omega)]
        omega
    · -- upper bound: the top `w+1` slots are written by the negative indices
      by_contra hc
      push_neg at hc
      have hi1 : (1 : ℤ) ≤ cellsZ w h - k := by omega
      have hi2 : cellsZ w h - k < w + 2 := by omega
      have hmem : cellsZ w h - k ∈ rangeZ (w + 2) := mem_rangeZ.mpr ⟨by omega, hi2⟩
      have := (hfresh1 (cellsZ w h - k) hmem).2
      apply this
      unfold inorm pyIdx
      rw [hcast]
      rw [if_pos (by omega)]
      omega

theorem getD_of_len_le {α : Type _} {l : List α} {k : ℕ} {d : α}
    (h : l.length ≤ k) : l.getD k d = d := by
  rw [List.getD_eq_getElem?_getD, List.getElem?_eq_none h]
  rfl

theorem nbrCountSpec_allDead {s : Life}
    (hd : ∀ k : ℕ, k < s.live.length → s.live.getD k false = false) (k : ℕ) :
    nbrCountSpec s k = 0 := by
  unfold nbrCountSpec
  rw [List.filter_eq_nil_iff.mpr]
  · rfl
  · intro off hoff
    intro hpred
    simp only [Bool.and_eq_true] at hpred
    have hlive := hpred.2
    by_cases hlt : ((k : ℤ) + off).toNat < s.live.length
    · rw [hd _ hlt] at hlive
      exact Bool.false_ne_true hlive
    · rw [getD_of_len_le (by omega)] at hlive
      exact Bool.false_ne_true hlive

theorem LifeInv_init {w h : ℤ} {s : Life} (hw : 1 ≤ w) (hh : 1 ≤ h)
    (hs : Life.init w h = .ok s) : LifeInv w h s := by
  obtain ⟨s', hs', hw', hh', hlive, hnbr, hnbhd, hnu, hiblen, hib⟩ := init_ok hw hh
  rw [hs] at hs'
  cases hs'
  refine ⟨hw, hh, hw', hh', ?_, hiblen, ?_, hnbhd, hib, ?_, ?_⟩
  · rw [hlive]; exact List.length_replicate _ _
  · rw [hnbr]; exact List.length_replicate _ _
  · rw [hnu]; intro e he; exact absurd he (Finset.not_mem_empty e)
  · intro k hk hib'
    rw [hnbr, getD_replicate', if_pos hk]
    rw [nbrCountSpec_allDead]
    intro k' hk'
    rw [hlive, getD_replicate']
    split <;> rfl

/-! ## Counting helpers -/

theorem filter_length_sub (l : List ℤ) (P Q : ℤ → Bool) (c : ℤ)
    (hagree : ∀ x ∈ l, x ≠ c → P x = Q x) :
    ((l.filter P).length : ℤ) = ((l.filter Q).length : ℤ) +
      (l.count c : ℤ) * ((if P c then 1 else 0) - (if Q c then 1 else 0)) := by
  induction l with
  | nil => simp
  | cons x xs ih =>
    have ihh := ih (fun y hy => hagree y (List.mem_cons_of_mem _ hy))
    rw [List.filter_cons, List.filter_cons, List.count_cons]
    by_cases hx : x = c
    · subst hx
      by_cases hP : P x = true <;> by_cases hQ : Q x = true <;>
        · simp only [hP, hQ, eq_self_iff_true, if_true, if_false, Bool.false_eq_true,
            List.length_cons, beq_self_eq_true] at ihh ⊢
          push_cast at ihh ⊢
          omega
    · have hPQ : P x = Q x := hagree x (List.mem_cons_self _ _) hx
      have hbeq : (x == c) = false := by simp [hx]
      rw [hPQ, hbeq]
      by_cases hQ : Q x = true <;>
        · simp only [hQ, eq_self_iff_true, if_true, if_false, Bool.false_eq_true,
            List.length_cons, Nat.add_zero, add_zero] at ihh ⊢
          push_cast at ihh ⊢
          omega

theorem filter_eq_count (l : List ℤ) (c : ℤ) :
    (l.filter (fun x => x == c)).length = l.count c := by
  rw [List.count, List.countP_eq_length_filter]

theorem count_indicator {l : List ℤ} {c : ℤ} (hn : l.Nodup) :
    (l.count c : ℤ) = if c ∈ l then 1 else 0 := by
  by_cases hc : c ∈ l
  · rw [List.count_eq_one_of_mem hn hc, if_pos hc]
    exact Nat.cast_one
  · rw [List.count_eq_zero_of_not_mem hc, if_neg hc]
    exact Nat.cast_zero

/-- Where a neighbour offset lands when the mutation slot is marked
in-bounds: either the flat slot `pyIdx N p + off` (inside storage), or —
only for a negative `p` whose normalised slot is one of the two unmasked
border slots — a wrapped slot of padded row 0 (index 0 or 1). -/
theorem offset_slot {w h : ℤ} {p off : ℤ} (hw : 1 ≤ w) (hh : 1 ≤ h)
    (hvp : validIdx (cellsN w h) p)
    (hQlo : w + 3 ≤ pyIdx (cellsN w h) p)
    (hQhi : pyIdx (cellsN w h) p ≤ cellsZ w h - (w + 2))
    (hofflo : -(w + 3) ≤ off) (hoffhi : off ≤ w + 3)
    (hvo : validIdx (cellsN w h) (off + p)) :
    (pyIdx (cellsN w h) p + off < cellsZ w h ∧
      (inorm (cellsN w h) (off + p) : ℤ) = pyIdx (cellsN w h) p + off) ∨
    (cellsZ w h ≤ pyIdx (cellsN w h) p + off ∧
      (inorm (cellsN w h) (off + p) : ℤ) = pyIdx (cellsN w h) p + off - cellsZ w h ∧
      (inorm (cellsN w h) (off + p) : ℤ) ≤ 1) := by
  have hcast := cellsN_cast hw hh
  have hvp' := validIdx_iff.mp hvp
  have hvo' := validIdx_iff.mp hvo
  by_cases hp : 0 ≤ p
  · rw [pyIdx_of_nonneg hp] at *
    have hop : 0 ≤ off + p := by omega
    rw [inorm_of_nonneg hop]
    left
    omega
  · rw [pyIdx_of_neg (by omega)] at *
    by_cases hop : off + p < 0
    · left
      unfold inorm
      rw [pyIdx_of_neg hop]
      omega
    · right
      unfold inorm
      rw [pyIdx_of_nonneg (by omega)]
      omega

theorem adjCount_eq {w h : ℤ} {s : Life} (hs : LifeInv w h s) {p : ℤ} {k : ℕ}
    (hvp : validIdx (cellsN w h) p)
    (hmp : s.in_bounds.getD (inorm (cellsN w h) p) false = true)
    (hvo : ∀ off ∈ neighbourhoodOf w, validIdx (cellsN w h) (off + p))
    (hmk : s.in_bounds.getD k false = true) (hkN : k < cellsN w h) :
    (((neighbourhoodOf w).filter (fun off =>
        (inorm (cellsN w h) (off + p) == k) && maskPass s.in_bounds p off)).length : ℤ)
      = if ((k : ℤ) - pyIdx (cellsN w h) p) ∈ neighbourhoodOf w then 1 else 0 := by
  have hQ := hs.ibBounds (inorm (cellsN w h) p) hmp
  rw [inorm_coe hvp] at hQ
  have hcast := cellsN_cast hs.hw hs.hh
  have hcongr : ∀ off ∈ neighbourhoodOf w,
      ((inorm (cellsN w h) (off + p) == k) && maskPass s.in_bounds p off) =
      (off == (k : ℤ) - pyIdx (cellsN w h) p) := by
    intro off hoff
    obtain ⟨hne, hlo, hhi⟩ := neighbourhoodOf_abs hs.hw hoff
    have hnormlen : inorm s.in_bounds.length (off + p) =
        inorm (cellsN w h) (off + p) := by rw [hs.ibLen]
    have hkC : (k : ℤ) < cellsZ w h := by omega
    rcases offset_slot hs.hw hs.hh hvp hQ.1 hQ.2 hlo hhi (hvo off hoff) with
      ⟨hlt, hval⟩ | ⟨hge, hval, hle1⟩
    · by_cases hk : (inorm (cellsN w h) (off + p)) = k
      · have hoffeq : off = (k : ℤ) - pyIdx (cellsN w h) p := by omega
        have hmp' : maskPass s.in_bounds p off = true := by
          unfold maskPass
          rw [hnormlen, hk]
          exact hmk
        have hbeq1 : (inorm (cellsN w h) (off + p) == k) = true := by
          simp [hk]
        have hbeq2 : (off == (k : ℤ) - pyIdx (cellsN w h) p) = true := by
          simp [hoffeq]
        rw [hbeq1, hmp', hbeq2]
        rfl
      · have hoffne : ¬ off = (k : ℤ) - pyIdx (cellsN w h) p := by
          intro hc
          apply hk
          omega
        have hbeq1 : (inorm (cellsN w h) (off + p) == k) = false := by
          simp [hk]
        have hbeq2 : (off == (k : ℤ) - pyIdx (cellsN w h) p) = false := by
          simp [hoffne]
        rw [hbeq1, hbeq2]
        simp
    · have hmf : maskPass s.in_bounds p off = false := by
        unfold maskPass
        rw [hnormlen]
        by_contra hcon
        have htrue : s.in_bounds.getD (inorm (cellsN w h) (off + p)) false = true := by
          revert hcon
          cases s.in_bounds.getD (inorm (cellsN w h) (off + p)) false <;> simp
        have hw1 : 1 ≤ w := hs.hw
        obtain ⟨hb1, hb2⟩ := hs.ibBounds _ htrue
        omega
      have hbeq2 : (off == (k : ℤ) - pyIdx (cellsN w h) p) = false := by
        have : ¬ off = (k : ℤ) - pyIdx (cellsN w h) p := by omega
        simp [this]
      rw [hmf, hbeq2]
      simp
  rw [List.filter_congr hcongr, filter_eq_count,
    count_indicator (neighbourhoodOf_nodup hs.hw)]

theorem nbrCountSpec_set {w h : ℤ} {s t : Life} (hs : LifeInv w h s) {q : ℕ} {v : Bool}
    (k : ℕ) (hq : q < cellsN w h)
    (hmq : s.in_bounds.getD q false = true)
    (hlvq : s.live.getD q false = !v)
    (ht : t.live = s.live.set q v) (htib : t.in_bounds = s.in_bounds)
    (htw : t.width = s.width) :
    nbrCountSpec t k = nbrCountSpec s k +
      (if v then 1 else -1) *
        (if ((q : ℤ) - (k : ℤ)) ∈ neighbourhoodOf w then 1 else 0) := by
  obtain ⟨hqlo, -⟩ := hs.ibBounds q hmq
  have hw1 : 1 ≤ w := hs.hw
  have hllen := hs.liveLen
  unfold nbrCountSpec
  rw [ht, htib, htw, hs.wEq, List.length_set]
  have hagree : ∀ off ∈ neighbourhoodOf w, off ≠ (q : ℤ) - (k : ℤ) →
      (decide (0 ≤ (k : ℤ) + off) && decide ((k : ℤ) + off < (s.live.length : ℤ)) &&
        s.in_bounds.getD ((k : ℤ) + off).toNat false &&
        (s.live.set q v).getD ((k : ℤ) + off).toNat false) =
      (decide (0 ≤ (k : ℤ) + off) && decide ((k : ℤ) + off < (s.live.length : ℤ)) &&
        s.in_bounds.getD ((k : ℤ) + off).toNat false &&
        s.live.getD ((k : ℤ) + off).toNat false) := by
    intro off hoff hoffne
    by_cases hsign : 0 ≤ (k : ℤ) + off
    · have htn : ((k : ℤ) + off).toNat ≠ q := by
        intro hc
        apply hoffne
        omega
      rw [getD_set_general, if_neg (fun hc => htn hc.1.symm)]
    · have hd : decide (0 ≤ (k : ℤ) + off) = false := by
        simp [hsign]
      rw [hd]
      simp
  have hmain := filter_length_sub (neighbourhoodOf w)
    (fun off => decide (0 ≤ (k : ℤ) + off) && decide ((k : ℤ) + off < (s.live.length : ℤ)) &&
        s.in_bounds.getD ((k : ℤ) + off).toNat false &&
        (s.live.set q v).getD ((k : ℤ) + off).toNat false)
    (fun off => decide (0 ≤ (k : ℤ) + off) && decide ((k : ℤ) + off < (s.live.length : ℤ)) &&
        s.in_bounds.getD ((k : ℤ) + off).toNat false &&
        s.live.getD ((k : ℤ) + off).toNat false)
    ((q : ℤ) - (k : ℤ)) hagree
  rw [hmain, count_indicator (neighbourhoodOf_nodup hs.hw)]
  have hkq : ((k : ℤ) + ((q : ℤ) - (k : ℤ))).toNat = q := by omega
  have hd0 : decide (0 ≤ (k : ℤ) + ((q : ℤ) - (k : ℤ))) = true := by
    rw [decide_eq_true_iff]
    omega
  have hd1 : decide ((k : ℤ) + ((q : ℤ) - (k : ℤ)) < (s.live.length : ℤ)) = true := by
    rw [decide_eq_true_iff]
    have := cellsN_cast hs.hw hs.hh
    omega
  have hsetq : (s.live.set q v).getD q false = v := by
    rw [getD_set_general, if_pos ⟨rfl, by omega⟩]
  dsimp only
  rw [hd0, hd1, hkq, hmq, hsetq, hlvq]
  simp only [Bool.true_and]
  by_cases hv : v = true
  · subst hv
    simp
  · have hv' : v = false := by
      revert hv; cases v <;> simp
    subst hv'
    simp only [Bool.not_false, if_true, if_false, Bool.false_eq_true, eq_self_iff_true]
    ring

theorem LifeInv_set {w h : ℤ} {s t : Life} {p : ℤ} {v : Bool}
    (hs : LifeInv w h s) (hset : s.set p v = .ok t) : LifeInv w h t := by
  obtain ⟨hvl, hcase⟩ := set_ok_cases hset
  rcases hcase with ⟨rfl, -⟩ | ⟨hlv, hvb, hib, hadj⟩
  · exact hs
  · rw [hs.liveLen] at hvl hlv hadj
    rw [hs.ibLen] at hvb hib
    have hvo₁ := adjLoop_ok_valid hadj
    dsimp only at hvo₁
    rw [hs.ibLen] at hvo₁
    have hvo : ∀ off ∈ neighbourhoodOf w, validIdx (cellsN w h) (off + p) := by
      rw [← hs.nbhd]; exact hvo₁
    obtain ⟨t', hrun, hnbr, hnu⟩ := adjLoop_char
      (t := { s with
              live := s.live.set (inorm (cellsN w h) p) v
              needs_update := insert p s.needs_update })
      (p := p) (a := if v then 1 else -1)
      (by dsimp only; rw [hs.nbLen, hs.ibLen])
      (by dsimp only; rw [hs.ibLen]; exact hvo₁)
    rw [hadj] at hrun
    injection hrun with hrun
    subst hrun
    dsimp only at hnbr hnu
    rw [hs.ibLen] at hnbr
    obtain ⟨hpw, hph, hplive, hpib, hpnbhd, hpnlen⟩ := adjLoop_preserves hadj
    dsimp only at hpw hph hplive hpib hpnbhd hpnlen
    -- the mutated live array
    have htlive : t.live = s.live.set (inorm (cellsN w h) p) v := hplive
    have htib : t.in_bounds = s.in_bounds := hpib
    refine ⟨hs.hw, hs.hh, hpw.trans hs.wEq, hph.trans hs.hEq, ?_, ?_, ?_, ?_, ?_, ?_, ?_⟩
    · rw [htlive, List.length_set]; exact hs.liveLen
    · rw [htib]; exact hs.ibLen
    · rw [hpnlen]; exact hs.nbLen
    · rw [hpnbhd]; exact hs.nbhd
    · rw [htib]; exact hs.ibBounds
    · -- the dirty set stays well-formed
      rw [hnu]
      intro e he
      rw [htib]
      rcases Finset.mem_union.mp he with hin | hF
      · rcases Finset.mem_insert.mp hin with rfl | hold
        · exact ⟨hvl, hib⟩
        · exact hs.nuMem e hold
      · rw [List.mem_toFinset, List.mem_map] at hF
        obtain ⟨off, hofffil, rfl⟩ := hF
        rw [List.mem_filter] at hofffil
        obtain ⟨hoffmem, hoffmask⟩ := hofffil
        refine ⟨?_, ?_⟩
        · rw [← hs.nbhd] at hvo
          exact hvo off hoffmem
        · unfold maskPass at hoffmask
          rw [hs.ibLen] at hoffmask
          exact hoffmask
    · -- neighbour-count correctness
      intro k hk hmk
      rw [htib] at hmk
      rw [hnbr k]
      rw [hs.nbhd]
      have hQmask : s.in_bounds.getD (inorm (cellsN w h) p) false = true := hib
      rw [adjCount_eq hs hvl hQmask hvo hmk hk]
      have hspec := nbrCountSpec_set hs (q := inorm (cellsN w h) p) (v := v) k
        (inorm_lt hvl) hQmask hlv htlive htib (hpw.trans (hs.wEq.trans hs.wEq.symm))
      rw [hspec]
      rw [hs.cnt k hk hmk]
      have hsymm : (((k : ℤ) - pyIdx (cellsN w h) p) ∈ neighbourhoodOf w) ↔
          (((inorm (cellsN w h) p : ℤ) - (k : ℤ)) ∈ neighbourhoodOf w) := by
        rw [inorm_coe hvl]
        constructor
        · intro hmem
          have := neighbourhoodOf_symm hmem
          rwa [show -((k : ℤ) - pyIdx (cellsN w h) p) =
            pyIdx (cellsN w h) p - (k : ℤ) by ring] at this
        · intro hmem
          have := neighbourhoodOf_symm hmem
          rwa [show -(pyIdx (cellsN w h) p - (k : ℤ)) =
            (k : ℤ) - pyIdx (cellsN w h) p by ring] at this
      by_cases hmem : ((k : ℤ) - pyIdx (cellsN w h) p) ∈ neighbourhoodOf w
      · rw [if_pos hmem, if_pos (hsymm.mp hmem)]
      · rw [if_neg hmem, if_neg (fun hc => hmem (hsymm.mpr hc))]

theorem LifeInv_applyRule {w h : ℤ} {s t : Life} {x : ℤ × Bool × ℤ}
    (hs : LifeInv w h s) (hx : applyRule s x = .ok t) : LifeInv w h t := by
  unfold applyRule at hx
  split at hx
  · exact LifeInv_set hs hx
  · split at hx
    · exact LifeInv_set hs hx
    · cases hx
      exact hs

theorem LifeInv_runRules {w h : ℤ} {u : List (ℤ × Bool × ℤ)} {s t : Life}
    (hs : LifeInv w h s) (hu : runRules s u = .ok t) : LifeInv w h t := by
  induction u generalizing s with
  | nil => cases hu; exact hs
  | cons x rest ih =>
    unfold runRules at hu
    cases happ : applyRule s x with
    | error e => rw [happ] at hu; exact Except.noConfusion hu
    | ok t₁ =>
      rw [happ] at hu
      exact ih (LifeInv_applyRule hs happ) hu

theorem LifeInv_clear {w h : ℤ} {s : Life} (hs : LifeInv w h s) :
    LifeInv w h { s with needs_update := ∅ } := by
  refine ⟨hs.hw, hs.hh, hs.wEq, hs.hEq, hs.liveLen, hs.ibLen, hs.nbLen, hs.nbhd,
    hs.ibBounds, ?_, hs.cnt⟩
  intro e he
  exact absurd he (Finset.not_mem_empty e)

theorem LifeInv_gen {w h : ℤ} {s t : Life}
    (hs : LifeInv w h s) (hg : s.gen = .ok t) : LifeInv w h t := by
  unfold Life.gen at hg
  cases hsnap : snapList s (sortFinZ s.needs_update) with
  | error e => rw [hsnap] at hg; exact Except.noConfusion hg
  | ok u =>
    rw [hsnap] at hg
    exact LifeInv_runRules (LifeInv_clear hs) hg

theorem LifeInv_updateN {w h : ℤ} {n : ℕ} {s t : Life}
    (hs : LifeInv w h s) (hu : s.updateN n = .ok t) : LifeInv w h t := by
  induction n generalizing s with
  | zero => cases hu; exact hs
  | succ m ih =>
    unfold Life.updateN at hu
    cases hg : s.gen with
    | error e => rw [hg] at hu; exact Except.noConfusion hu
    | ok t₁ =>
      rw [hg] at hu
      exact ih (LifeInv_gen hs hg) hu

theorem LifeInv_update {w h : ℤ} {n : ℤ} {s t : Life}
    (hs : LifeInv w h s) (hu : s.update n = .ok t) : LifeInv w h t :=
  LifeInv_updateN hs hu

theorem LifeInv_pasteLine {w h : ℤ} {cs : List (ℕ × Char)} {x yj : ℤ} {s t : Life}
    (hs : LifeInv w h s) (hp : pasteLine s x yj cs = .ok t) : LifeInv w h t := by
  induction cs generalizing s with
  | nil => cases hp; exact hs
  | cons c rest ih =>
    unfold pasteLine at hp
    cases hset : s.set (s.cell (x + c.1) yj) (c.2 == 'o') with
    | error e => rw [hset] at hp; exact Except.noConfusion hp
    | ok t₁ =>
      rw [hset] at hp
      exact ih (LifeInv_set hs hset) hp

theorem LifeInv_pasteRows {w h : ℤ} {rows : List (ℕ × String)} {x y : ℤ} {s t : Life}
    (hs : LifeInv w h s) (hp : pasteRows s x y rows = .ok t) : LifeInv w h t := by
  induction rows generalizing s with
  | nil => cases hp; exact hs
  | cons r rest ih =>
    unfold pasteRows at hp
    cases hline : pasteLine s x (y + r.1) ((pyStrip r.2).toList.enum) with
    | error e => rw [hline] at hp; exact Except.noConfusion hp
    | ok t₁ =>
      rw [hline] at hp
      exact ih (LifeInv_pasteLine hs hline) hp

theorem LifeInv_paste {w h : ℤ} {str : String} {x y : ℤ} {s t : Life}
    (hs : LifeInv w h s) (hp : s.paste str x y = .ok t) : LifeInv w h t :=
  LifeInv_pasteRows hs hp

theorem LifeInv_reach {w h : ℤ} {s : Life} (hw : 1 ≤ w) (hh : 1 ≤ h)
    (hr : Reach w h s) : LifeInv w h s := by
  induction hr with
  | init hinit => exact LifeInv_init hw hh hinit
  | set _ hset ih => exact LifeInv_set ih hset
  | update _ hup ih => exact LifeInv_update ih hup
  | paste _ hpaste ih => exact LifeInv_paste ih hpaste

/-- **C1** Neighbour-count invariant: in every state reachable from a
freshly constructed engine through completed public-API calls (`set` with
any argument, `update`, `paste`), and for every storage slot `i` the
in-bounds mask marks true, `neighbours[i]` equals the number of the 8
surrounding storage slots (the engine's own flat offsets, clipped to
storage) that are in-bounds and live. -/
theorem neighbour_count_invariant (w h : ℤ) (s : Life) (hw : 1 ≤ w) (hh : 1 ≤ h)
    (hr : Reach w h s) (i : ℕ) (hi : i < cellsN w h)
    (hb : s.in_bounds.getD i false = true) :
    s.neighbours.getD i 0 = nbrCountSpec s i :=
  (LifeInv_reach hw hh hr).cnt i hi hb

/-- Witness for C1: on the 1×1 grid after `set(4, True)`, slot 5 is marked
in-bounds and its neighbour count (1) matches the specification count. -/
theorem neighbour_count_invariant_witness :
    g11a.in_bounds.getD 5 false = true ∧
    g11a.neighbours.getD 5 0 = nbrCountSpec g11a 5 :=
  ⟨by decide,
    neighbour_count_invariant 1 1 g11a (by decide) (by decide)
      (@Reach.set 1 1 g11 g11a 4 true (@Reach.init 1 1 g11 (by decide))
        (by decide)) 5 (by decide) (by decide)⟩

/-! ## Quiescence -/

theorem mem_sortFinZ {u : Finset ℤ} {e : ℤ} : e ∈ sortFinZ u ↔ e ∈ u := by
  rcases u with ⟨m, hm⟩
  revert hm
  induction m using Quotient.inductionOn with
  | h l =>
    intro hm
    show e ∈ List.insertionSort (· ≤ ·) l ↔ _
    rw [(List.perm_insertionSort (· ≤ ·) l).mem_iff]
    exact Iff.rfl

theorem snapList_allDead {w h : ℤ} {s : Life} (hs : LifeInv w h s) (hd : allDeadL s)
    {lst : List ℤ} (hmem : ∀ e ∈ lst, e ∈ s.needs_update) :
    ∃ u, snapList s lst = .ok u ∧ ∀ x ∈ u, x.2.1 = false ∧ x.2.2 = 0 := by
  induction lst with
  | nil => exact ⟨[], rfl, by simp⟩
  | cons e rest ih =>
    have hin := hmem e (List.mem_cons_self _ _)
    obtain ⟨hv, hm⟩ := hs.nuMem e hin
    have hvl : validIdx s.live.length e := by rw [hs.liveLen]; exact hv
    have hlv : pyGet s.live e = .ok false := by
      rw [pyGet_ok_of_valid hvl false]
      congr 1
      exact hd _ (inorm_lt hvl)
    have hvn : validIdx s.neighbours.length e := by rw [hs.nbLen]; exact hv
    have hnb : pyGet s.neighbours e = .ok 0 := by
      rw [pyGet_ok_of_valid hvn 0]
      congr 1
      have hnorm : inorm s.neighbours.length e = inorm (cellsN w h) e := by
        rw [hs.nbLen]
      rw [hnorm, hs.cnt _ (inorm_lt hv) hm]
      exact nbrCountSpec_allDead hd _
    obtain ⟨u, hu, hprop⟩ := ih (fun e' he' => hmem e' (List.mem_cons_of_mem _ he'))
    refine ⟨(e, false, 0) :: u, ?_, ?_⟩
    · unfold snapList
      simp only [hlv, hnb, hu]
    · intro x hx
      rcases List.mem_cons.mp hx with rfl | hx'
      · exact ⟨rfl, rfl⟩
      · exact hprop x hx'

theorem runRules_noop {u : List (ℤ × Bool × ℤ)} {t : Life}
    (hu : ∀ x ∈ u, x.2.1 = false ∧ x.2.2 = 0) :
    runRules t u = .ok t := by
  induction u with
  | nil => rfl
  | cons x rest ih =>
    obtain ⟨h1, h2⟩ := hu x (List.mem_cons_self _ _)
    have happ : applyRule t x = .ok t := by
      unfold applyRule
      rw [if_neg (fun hc => Bool.false_ne_true (h1 ▸ hc.1))]
      rw [if_neg (fun hc => by rw [h2] at hc; exact absurd hc.2 (by decide))]
    unfold runRules
    simp only [happ]
    exact ih (fun x' hx' => hu x' (List.mem_cons_of_mem _ hx'))

theorem gen_allDead {w h : ℤ} {s : Life} (hs : LifeInv w h s) (hd : allDeadL s) :
    s.gen = .ok { s with needs_update := ∅ } := by
  obtain ⟨u, hu, hprop⟩ := @snapList_allDead w h s hs hd
    (sortFinZ s.needs_update) (fun e he => mem_sortFinZ.mp he)
  unfold Life.gen
  simp only [hu]
  exact runRules_noop hprop

theorem gen_empty {s : Life} (hnu : s.needs_update = ∅) : s.gen = .ok s := by
  have hfix : ({ s with needs_update := s.needs_update } : Life) = s := rfl
  unfold Life.gen
  rw [hnu]
  show runRules { s with needs_update := ∅ } [] = .ok s
  rw [← hnu]
  rw [hfix]
  rfl

theorem updateN_fix {s : Life} (hnu : s.needs_update = ∅) (m : ℕ) :
    s.updateN m = .ok s := by
  induction m with
  | zero => rfl
  | succ k ih =>
    unfold Life.updateN
    simp only [gen_empty hnu]
    exact ih

/-- **C8** Quiescence: in any reachable all-dead state, one `update` call
leaves the dirty set empty and the board unchanged, and every further
`update` call (any number of steps) keeps the dirty set empty and the
board all-dead. -/
theorem quiescence (w h : ℤ) (s : Life) (hw : 1 ≤ w) (hh : 1 ≤ h)
    (hr : Reach w h s) (hd : allDeadL s) :
    (∀ n : ℤ, 1 ≤ n → s.update n = .ok { s with needs_update := ∅ }) ∧
    allDeadL ({ s with needs_update := ∅ } : Life) ∧
    (∀ m : ℤ, ({ s with needs_update := ∅ } : Life).update m =
      .ok { s with needs_update := ∅ }) := by
  have hs := LifeInv_reach hw hh hr
  have hgen : s.gen = .ok { s with needs_update := ∅ } := gen_allDead hs hd
  refine ⟨?_, hd, ?_⟩
  · intro n hn
    unfold Life.update
    have hpos : n.toNat = (n.toNat - 1) + 1 := by omega
    rw [hpos]
    unfold Life.updateN
    simp only [hgen]
    exact updateN_fix rfl _
  · intro m
    unfold Life.update
    exact updateN_fix rfl _

/-- Witness for C8: the 1×1 engine after setting its cell alive and dead
again is all-dead with dirty set `{3, 4, 5, 6}`-like contents; one update
clears the dirty set and leaves the board unchanged, and so does every
further update. -/
theorem quiescence_witness :
    allDeadL g11b ∧
    g11b.update 1 = .ok { g11b with needs_update := ∅ } ∧
    ({ g11b with needs_update := ∅ } : Life).update 7 =
      .ok { g11b with needs_update := ∅ } :=
  have hq := quiescence 1 1 g11b (by decide) (by decide)
    (@Reach.set 1 1 g11a g11b 4 false
      (@Reach.set 1 1 g11 g11a 4 true (@Reach.init 1 1 g11 (by decide)) (by decide))
      (by decide))
    (by decide)
  ⟨by decide, hq.1 1 (by decide), hq.2.2 7⟩

/-! ## In-range mutation safety -/

theorem set_ok_of_inner {w h : ℤ} {s : Life} (hs : LifeInv w h s) {p : ℤ} {v : Bool}
    (hp0 : 0 ≤ p) (hpN : p < cellsZ w h)
    (hoffs : ∀ off ∈ neighbourhoodOf w, 0 ≤ p + off ∧ p + off < cellsZ w h) :
    okE (s.set p v) = true := by
  have hcast := cellsN_cast hs.hw hs.hh
  have hvl : validIdx s.live.length p := by
    rw [hs.liveLen, validIdx_iff]
    omega
  have hvb : validIdx s.in_bounds.length p := by
    rw [hs.ibLen, validIdx_iff]
    omega
  unfold Life.set
  simp only [pyGet_ok_of_valid hvl false]
  by_cases hveq : v = s.live.getD (inorm s.live.length p) false
  · rw [if_pos hveq]
    rfl
  · rw [if_neg hveq]
    simp only [pyGet_ok_of_valid hvb false]
    cases hb : s.in_bounds.getD (inorm s.in_bounds.length p) false with
    | false =>
      rw [if_neg Bool.false_ne_true]
      rfl
    | true =>
      rw [if_pos rfl]
      have hps : pySet s.live p v = .ok (s.live.set (inorm s.live.length p) v) :=
        pySet_eq_ok.mpr ⟨hvl, rfl⟩
      simp only [hps]
      obtain ⟨t', hrun, -, -⟩ := @adjLoop_char s.neighbourhood
        ({ s with
           live := s.live.set (inorm s.live.length p) v
           needs_update := insert p s.needs_update })
        p (if v then 1 else -1)
        (by dsimp only; rw [hs.nbLen, hs.ibLen])
        (by
          dsimp only
          intro off hoff
          rw [hs.nbhd] at hoff
          rw [hs.ibLen, validIdx_iff]
          have := hoffs off hoff
          omega)
      rw [hrun]
      rfl

/-- **C9** In-range mutation safety: for every reachable engine on a
`w×h` grid and every logical coordinate inside the grid, `cell(x, y)`
yields an interior storage slot, and `set(cell(x, y), v)` touches only
flat indices inside `[0, (w+2)*(h+2))` — it never raises and never wraps
to a different cell. -/
theorem set_in_range_safe (w h x y : ℤ) (v : Bool) (s : Life) (hw : 1 ≤ w) (hh : 1 ≤ h)
    (hr : Reach w h s) (hx0 : 0 ≤ x) (hx1 : x < w) (hy0 : 0 ≤ y) (hy1 : y < h) :
    interiorSlot w h (s.cell x y) ∧
    0 ≤ s.cell x y ∧ s.cell x y < cellsZ w h ∧
    (∀ off ∈ neighbourhoodOf w, 0 ≤ s.cell x y + off ∧ s.cell x y + off < cellsZ w h) ∧
    okE (s.set (s.cell x y) v) = true := by
  have hs := LifeInv_reach hw hh hr
  have hcell : s.cell x y = cellIdx w x y := by
    unfold Life.cell cellIdx
    rw [hs.wEq]
  have hWy : (w + 2) * (y + 1) ≤ (w + 2) * h :=
    mul_le_mul_of_nonneg_left (by omega) (by omega)
  have hWy0 : (w + 2) * 1 ≤ (w + 2) * (y + 1) :=
    mul_le_mul_of_nonneg_left (by omega) (by omega)
  have hcz : cellsZ w h = (w + 2) * h + 2 * (w + 2) := by
    unfold cellsZ
    ring
  have hlo : w + 3 ≤ cellIdx w x y := by
    unfold cellIdx
    omega
  have hhi : cellIdx w x y ≤ cellsZ w h - (w + 2) - 2 := by
    unfold cellIdx
    omega
  rw [hcell]
  have hoffs : ∀ off ∈ neighbourhoodOf w,
      0 ≤ cellIdx w x y + off ∧ cellIdx w x y + off < cellsZ w h := by
    intro off hoff
    obtain ⟨-, holo, hohi⟩ := neighbourhoodOf_abs hw hoff
    omega
  refine ⟨⟨x, y, hx0, hx1, hy0, hy1, rfl⟩, by omega, by omega, hoffs, ?_⟩
  exact set_ok_of_inner hs (by omega) (by omega) hoffs

/-- Witness for C9: on a fresh 3×3 engine, setting logical cell (1, 1)
is safe: slot 11 is interior, all its neighbour slots are in storage, and
the call succeeds. -/
theorem set_in_range_safe_witness :
    interiorSlot 3 3 (g33.cell 1 1) ∧
    0 ≤ g33.cell 1 1 ∧ g33.cell 1 1 < cellsZ 3 3 ∧
    (∀ off ∈ neighbourhoodOf 3, 0 ≤ g33.cell 1 1 + off ∧ g33.cell 1 1 + off < cellsZ 3 3) ∧
    okE (g33.set (g33.cell 1 1) true) = true :=
  set_in_range_safe 3 3 1 1 true g33 (by decide) (by decide)
    (@Reach.init 3 3 g33 (by decide)) (by decide) (by decide) (by decide) (by decide)

/-! ## Commutation of `set` calls -/

theorem any_pyerr (e : PyErr) : e = .indexError := by
  cases e
  rfl

theorem set_invalid {s : Life} {p : ℤ} {v : Bool}
    (h : ¬ validIdx s.live.length p) : s.set p v = .error .indexError := by
  unfold Life.set
  rw [pyGet_eq_error.mpr ⟨h, rfl⟩]

theorem set_noop_val {s : Life} {p : ℤ} {v : Bool}
    (hvl : validIdx s.live.length p)
    (hveq : s.live.getD (inorm s.live.length p) false = v) : s.set p v = .ok s := by
  unfold Life.set
  simp only [pyGet_ok_of_valid hvl false]
  rw [if_pos hveq.symm]

theorem set_noop_mask {s : Life} {p : ℤ} {v : Bool}
    (hvl : validIdx s.live.length p)
    (hneq : s.live.getD (inorm s.live.length p) false ≠ v)
    (hvb : validIdx s.in_bounds.length p)
    (hib : s.in_bounds.getD (inorm s.in_bounds.length p) false = false) :
    s.set p v = .ok s := by
  unfold Life.set
  simp only [pyGet_ok_of_valid hvl false]
  rw [if_neg (fun hc => hneq hc.symm)]
  simp only [pyGet_ok_of_valid hvb false, hib]
  rw [if_neg Bool.false_ne_true]

theorem adjLoop_error_of_invalid {offs : List ℤ} {t : Life} {p a : ℤ}
    (hinv : ∃ off ∈ offs, ¬ validIdx t.in_bounds.length (off + p)) :
    adjLoop t p a offs = .error .indexError := by
  cases hres : adjLoop t p a offs with
  | ok t' =>
    obtain ⟨off, hoff, hbad⟩ := hinv
    exact absurd (adjLoop_ok_valid hres off hoff) hbad
  | error e => rw [any_pyerr e]

theorem set_ok_live_getD {s t : Life} {p : ℤ} {v : Bool} (h : s.set p v = .ok t)
    (k : ℕ) (hk : k ≠ inorm s.live.length p) :
    t.live.getD k false = s.live.getD k false := by
  rcases set_ok_live h with hsame | ⟨hvl, hset⟩
  · rw [hsame]
  · rw [hset, getD_set_general, if_neg (fun hc => hk hc.1.symm)]

theorem set_error_cases {s : Life} {p : ℤ} {v : Bool}
    (hlen : s.in_bounds.length = s.live.length)
    (h : s.set p v = .error .indexError) :
    (¬ validIdx s.live.length p) ∨
    (validIdx s.live.length p ∧
     s.live.getD (inorm s.live.length p) false = !v ∧
     s.in_bounds.getD (inorm s.in_bounds.length p) false = true ∧
     adjLoop { s with
               live := s.live.set (inorm s.live.length p) v
               needs_update := insert p s.needs_update }
       p (if v then 1 else -1) s.neighbourhood = .error .indexError) := by
  by_cases hvl : validIdx s.live.length p
  · right
    unfold Life.set at h
    simp only [pyGet_ok_of_valid hvl false] at h
    by_cases hveq : v = s.live.getD (inorm s.live.length p) false
    · rw [if_pos hveq] at h
      exact Except.noConfusion h
    · rw [if_neg hveq] at h
      have hvb : validIdx s.in_bounds.length p := by rw [hlen]; exact hvl
      simp only [pyGet_ok_of_valid hvb false] at h
      cases hib : s.in_bounds.getD (inorm s.in_bounds.length p) false with
      | false =>
        rw [hib, if_neg Bool.false_ne_true] at h
        exact Except.noConfusion h
      | true =>
        rw [hib, if_pos rfl] at h
        simp only [pySet_eq_ok.mpr ⟨hvl, rfl⟩] at h
        refine ⟨hvl, ?_, rfl, h⟩
        revert hveq
        cases v <;> cases s.live.getD (inorm s.live.length p) false <;> simp
  · left
    exact hvl

theorem set_mut_char {w h : ℤ} {s : Life} (hs : LifeInv w h s) {p : ℤ} {v : Bool}
    (hp0 : 0 ≤ p)
    (hvl : validIdx (cellsN w h) p)
    (hneq : s.live.getD p.toNat false ≠ v)
    (hib : s.in_bounds.getD p.toNat false = true)
    (hvo : ∀ off ∈ neighbourhoodOf w, validIdx (cellsN w h) (off + p)) :
    ∃ t, s.set p v = .ok t ∧ t.width = s.width ∧ t.height = s.height ∧
      t.in_bounds = s.in_bounds ∧ t.neighbourhood = s.neighbourhood ∧
      t.live = s.live.set p.toNat v ∧
      t.neighbours.length = s.neighbours.length ∧
      (∀ k : ℕ, t.neighbours.getD k 0 = s.neighbours.getD k 0 +
        (if v then 1 else -1) * (((neighbourhoodOf w).filter (fun off =>
          (inorm (cellsN w h) (off + p) == k) && maskPass s.in_bounds p off)).length : ℤ)) ∧
      t.needs_update = insert p s.needs_update ∪
        (((neighbourhoodOf w).filter (maskPass s.in_bounds p)).map
          (fun off => off + p)).toFinset := by
  have hvl' : validIdx s.live.length p := by rw [hs.liveLen]; exact hvl
  have hvb' : validIdx s.in_bounds.length p := by rw [hs.ibLen]; exact hvl
  have hnorm : inorm s.live.length p = p.toNat := inorm_of_nonneg hp0
  have hnormb : inorm s.in_bounds.length p = p.toNat := inorm_of_nonneg hp0
  obtain ⟨t, hrun, hnbr, hnu⟩ := @adjLoop_char s.neighbourhood
    ({ s with
       live := s.live.set (inorm s.live.length p) v
       needs_update := insert p s.needs_update })
    p (if v then 1 else -1)
    (by dsimp only; rw [hs.nbLen, hs.ibLen])
    (by dsimp only
        intro off hoff
        rw [hs.nbhd] at hoff
        rw [hs.ibLen]
        exact hvo off hoff)
  dsimp only at hnbr hnu
  obtain ⟨hW, hH, hL, hB, hN, hLen⟩ := adjLoop_preserves hrun
  dsimp only at hW hH hL hB hN hLen
  refine ⟨t, ?_, hW, hH, hB, hN, by rw [hL, hnorm], hLen,
    ?_, ?_⟩
  · unfold Life.set
    simp only [pyGet_ok_of_valid hvl' false]
    rw [if_neg (by rw [hnorm]; exact fun hc => hneq hc.symm)]
    simp only [pyGet_ok_of_valid hvb' false]
    rw [hnormb, hib, if_pos rfl]
    simp only [pySet_eq_ok.mpr ⟨hvl', rfl⟩]
    exact hrun
  · intro k
    rw [hnbr k]
    rw [hs.nbhd]
    simp only [hs.ibLen]
  · rw [hnu, hs.nbhd]

theorem set_error_stable {w h : ℤ} {s t : Life} (hs : LifeInv w h s)
    {p q : ℤ} {vp vq : Bool} (hp : 0 ≤ p) (hq : 0 ≤ q) (hpq : p ≠ q)
    (herr : s.set p vp = .error .indexError) (hok : s.set q vq = .ok t) :
    t.set p vp = .error .indexError := by
  obtain ⟨-, -, htib, htnbhd, htll, -⟩ := set_preserves hok
  rcases set_error_cases (by rw [hs.ibLen, hs.liveLen]) herr with
    hinv | ⟨hvl, hlv, hmask, hadj⟩
  · apply set_invalid
    rw [htll]
    exact hinv
  · have hbad : ∃ off ∈ s.neighbourhood, ¬ validIdx s.in_bounds.length (off + p) := by
      by_contra hc
      push_neg at hc
      obtain ⟨t', hrun, -, -⟩ := @adjLoop_char s.neighbourhood
        ({ s with
           live := s.live.set (inorm s.live.length p) vp
           needs_update := insert p s.needs_update })
        p (if vp then 1 else -1)
        (by dsimp only; rw [hs.nbLen, hs.ibLen])
        (by dsimp only; exact hc)
      rw [hrun] at hadj
      exact Except.noConfusion hadj
    have hkp : inorm s.live.length p = p.toNat := inorm_of_nonneg hp
    have hkq : inorm s.live.length q = q.toNat := inorm_of_nonneg hq
    have hlive_pres : t.live.getD p.toNat false = s.live.getD p.toNat false := by
      apply set_ok_live_getD hok
      rw [hkq]
      omega
    cases hres : t.set p vp with
    | error e => rw [any_pyerr e]
    | ok t₂ =>
      exfalso
      obtain ⟨hvlt, hcases⟩ := set_ok_cases hres
      have hnt : inorm t.live.length p = p.toNat := inorm_of_nonneg hp
      rcases hcases with ⟨-, hval | ⟨-, hmaskf⟩⟩ | ⟨-, -, -, hadj₂⟩
      · rw [hnt, hlive_pres] at hval
        rw [hkp] at hlv
        rw [hlv] at hval
        cases vp <;> exact Bool.noConfusion hval
      · rw [htib] at hmaskf
        have : inorm s.in_bounds.length p = p.toNat := inorm_of_nonneg hp
        rw [this] at hmaskf
        rw [inorm_of_nonneg hp] at hmask
        rw [hmask] at hmaskf
        exact Bool.noConfusion hmaskf
      · have hvall := adjLoop_ok_valid hadj₂
        dsimp only at hvall
        obtain ⟨off, hoff, hoffbad⟩ := hbad
        apply hoffbad
        have := hvall off (by rw [htnbhd]; exact hoff)
        rw [htib] at this
        exact this

theorem Life.ext_eq {s t : Life}
    (h1 : s.width = t.width) (h2 : s.height = t.height)
    (h3 : s.live = t.live) (h4 : s.in_bounds = t.in_bounds)
    (h5 : s.neighbours = t.neighbours) (h6 : s.neighbourhood = t.neighbourhood)
    (h7 : s.needs_update = t.needs_update) : s = t := by
  cases s
  cases t
  dsimp only at h1 h2 h3 h4 h5 h6 h7
  subst h1 h2 h3 h4 h5 h6 h7
  rfl

theorem list_ext_getD {α : Type} {l₁ l₂ : List α} (d : α)
    (hlen : l₁.length = l₂.length)
    (hget : ∀ k : ℕ, l₁.getD k d = l₂.getD k d) : l₁ = l₂ := by
  apply List.ext_getElem hlen
  intro k hk1 hk2
  have hg := hget k
  rwa [List.getD_eq_getElem l₁ d hk1, List.getD_eq_getElem l₂ d hk2] at hg

theorem set_noop_pres {w h : ℤ} {s t : Life} (hs : LifeInv w h s)
    {p q : ℤ} {vp vq : Bool} (hp : 0 ≤ p) (hq : 0 ≤ q) (hpq : p ≠ q)
    (hvp : validIdx (cellsN w h) p)
    (hcond : s.live.getD p.toNat false = vp ∨
             s.in_bounds.getD p.toNat false = false)
    (hok : s.set q vq = .ok t) :
    t.set p vp = .ok t := by
  obtain ⟨-, -, htib, -, htll, -⟩ := set_preserves hok
  have hvlt : validIdx t.live.length p := by
    rw [htll, hs.liveLen]
    exact hvp
  have hnt : inorm t.live.length p = p.toNat := inorm_of_nonneg hp
  have hlive_pres : t.live.getD p.toNat false = s.live.getD p.toNat false := by
    apply set_ok_live_getD hok
    rw [inorm_of_nonneg hq]
    omega
  by_cases hval : t.live.getD (inorm t.live.length p) false = vp
  · exact set_noop_val hvlt hval
  · rcases hcond with hv | hm
    · exfalso
      rw [hnt, hlive_pres] at hval
      exact hval hv
    · apply set_noop_mask hvlt hval
      · rw [htib, hs.ibLen]
        exact hvp
      · rw [htib, inorm_of_nonneg hp]
        exact hm

theorem life_set_comm {w h : ℤ} {s : Life} (hs : LifeInv w h s)
    {p q : ℤ} {vp vq : Bool} (hp : 0 ≤ p) (hq : 0 ≤ q) (hpq : p ≠ q) :
    (s.set p vp).bind (fun t => t.set q vq) =
    (s.set q vq).bind (fun t => t.set p vp) := by
  have hnp : inorm s.live.length p = p.toNat := inorm_of_nonneg hp
  have hnq : inorm s.live.length q = q.toNat := inorm_of_nonneg hq
  have hnbp : inorm s.in_bounds.length p = p.toNat := inorm_of_nonneg hp
  have hnbq : inorm s.in_bounds.length q = q.toNat := inorm_of_nonneg hq
  have htn : p.toNat ≠ q.toNat := by omega
  cases hres₁ : s.set p vp with
  | error e₁ =>
    rw [any_pyerr e₁] at hres₁
    cases hres₂ : s.set q vq with
    | error e₂ =>
      rw [any_pyerr e₁, any_pyerr e₂]
      simp only [Except.bind]
    | ok t₂ =>
      simp only [Except.bind]
      rw [any_pyerr e₁, set_error_stable hs hp hq hpq hres₁ hres₂]
  | ok t₁ =>
    cases hres₂ : s.set q vq with
    | error e₂ =>
      rw [any_pyerr e₂] at hres₂
      simp only [Except.bind]
      rw [any_pyerr e₂,
        set_error_stable hs hq hp (Ne.symm hpq) hres₂ hres₁]
    | ok t₂ =>
      simp only [Except.bind]
      obtain ⟨hvlp, hc₁⟩ := set_ok_cases hres₁
      obtain ⟨hvlq, hc₂⟩ := set_ok_cases hres₂
      have hvp : validIdx (cellsN w h) p := by rw [← hs.liveLen]; exact hvlp
      have hvq : validIdx (cellsN w h) q := by rw [← hs.liveLen]; exact hvlq
      rcases hc₁ with ⟨heq₁, hnoop₁⟩ | ⟨hval₁, hvb₁, hib₁, hadj₁⟩
      · have hcond : s.live.getD p.toNat false = vp ∨
            s.in_bounds.getD p.toNat false = false := by
          rcases hnoop₁ with hv | ⟨-, hm⟩
          · left; rw [← hnp]; exact hv
          · right; rw [← hnbp]; exact hm
        rw [heq₁, hres₂, set_noop_pres hs hp hq hpq hvp hcond hres₂]
      · rcases hc₂ with ⟨heq₂, hnoop₂⟩ | ⟨hval₂, hvb₂, hib₂, hadj₂⟩
        · have hcond : s.live.getD q.toNat false = vq ∨
              s.in_bounds.getD q.toNat false = false := by
            rcases hnoop₂ with hv | ⟨-, hm⟩
            · left; rw [← hnq]; exact hv
            · right; rw [← hnbq]; exact hm
          rw [heq₂, hres₁,
            set_noop_pres hs hq hp (Ne.symm hpq) hvq hcond hres₁]
        · have hvop : ∀ off ∈ neighbourhoodOf w, validIdx (cellsN w h) (off + p) := by
            have hva := adjLoop_ok_valid hadj₁
            dsimp only at hva
            intro off hoff
            rw [← hs.ibLen]
            exact hva off (by rw [hs.nbhd]; exact hoff)
          have hvoq : ∀ off ∈ neighbourhoodOf w, validIdx (cellsN w h) (off + q) := by
            have hva := adjLoop_ok_valid hadj₂
            dsimp only at hva
            intro off hoff
            rw [← hs.ibLen]
            exact hva off (by rw [hs.nbhd]; exact hoff)
          have hneqp : s.live.getD p.toNat false ≠ vp := by
            rw [← hnp, hval₁]
            cases vp <;> simp
          have hneqq : s.live.getD q.toNat false ≠ vq := by
            rw [← hnq, hval₂]
            cases vq <;> simp
          have hibp : s.in_bounds.getD p.toNat false = true := by
            rw [← hnbp]; exact hib₁
          have hibq : s.in_bounds.getD q.toNat false = true := by
            rw [← hnbq]; exact hib₂
          obtain ⟨t₁', he₁, hW₁, hH₁, hB₁, hN₁, hL₁, hLen₁, hNb₁, hNu₁⟩ :=
            set_mut_char hs hp hvp hneqp hibp hvop
          rw [hres₁] at he₁
          cases Except.ok.inj he₁
          obtain ⟨t₂', he₂, hW₂, hH₂, hB₂, hN₂, hL₂, hLen₂, hNb₂, hNu₂⟩ :=
            set_mut_char hs hq hvq hneqq hibq hvoq
          rw [hres₂] at he₂
          cases Except.ok.inj he₂
          have ht₁ : LifeInv w h t₁ := LifeInv_set hs hres₁
          have ht₂ : LifeInv w h t₂ := LifeInv_set hs hres₂
          have hval₁q : t₁.live.getD q.toNat false ≠ vq := by
            rw [hL₁, getD_set_general, if_neg (fun hc => htn hc.1)]
            exact hneqq
          have hval₂p : t₂.live.getD p.toNat false ≠ vp := by
            rw [hL₂, getD_set_general, if_neg (fun hc => htn hc.1.symm)]
            exact hneqp
          have hib₁q : t₁.in_bounds.getD q.toNat false = true := by
            rw [hB₁]; exact hibq
          have hib₂p : t₂.in_bounds.getD p.toNat false = true := by
            rw [hB₂]; exact hibp
          obtain ⟨u₁, hu₁, hWu₁, hHu₁, hBu₁, hNu₁', hLu₁, hLenu₁, hNbu₁, hNuu₁⟩ :=
            set_mut_char ht₁ hq hvq hval₁q hib₁q hvoq
          obtain ⟨u₂, hu₂, hWu₂, hHu₂, hBu₂, hNu₂', hLu₂, hLenu₂, hNbu₂, hNuu₂⟩ :=
            set_mut_char ht₂ hp hvp hval₂p hib₂p hvop
          rw [hu₁, hu₂]
          refine congrArg Except.ok (Life.ext_eq ?_ ?_ ?_ ?_ ?_ ?_ ?_)
          · rw [hWu₁, hW₁, hWu₂, hW₂]
          · rw [hHu₁, hH₁, hHu₂, hH₂]
          · rw [hLu₁, hL₁, hLu₂, hL₂]
            exact List.set_comm vp vq s.live htn
          · rw [hBu₁, hB₁, hBu₂, hB₂]
          · apply list_ext_getD 0
            · rw [hLenu₁, hLen₁, hLenu₂, hLen₂]
            · intro k
              rw [hNbu₁ k, hNb₁ k, hNbu₂ k, hNb₂ k, hB₁, hB₂]
              ring
          · rw [hNu₁', hN₁, hNu₂', hN₂]
          · rw [hNuu₁, hNu₁, hNuu₂, hNu₂, hB₁, hB₂]
            ext x
            simp only [Finset.mem_insert, Finset.mem_union]
            tauto

theorem except_bind_assoc {α β γ : Type} (e : Except PyErr α)
    (f : α → Except PyErr β) (g : β → Except PyErr γ) :
    (e.bind f).bind g = e.bind (fun a => (f a).bind g) := by
  cases e <;> rfl

theorem runRules_cons (t : Life) (x : ℤ × Bool × ℤ) (l : List (ℤ × Bool × ℤ)) :
    runRules t (x :: l) = (applyRule t x).bind (fun u => runRules u l) := by
  show (match applyRule t x with
        | Except.error e => (Except.error e : Except PyErr Life)
        | Except.ok u => runRules u l) = _
  cases applyRule t x <;> rfl

theorem applyRule_shape (x : ℤ × Bool × ℤ) :
    (∀ t : Life, applyRule t x = .ok t) ∨
    (∃ v : Bool, ∀ t : Life, applyRule t x = t.set x.1 v) := by
  by_cases h1 : x.2.1 = true ∧ ¬(2 ≤ x.2.2 ∧ x.2.2 ≤ 3)
  · right
    exact ⟨false, fun t => by unfold applyRule; rw [if_pos h1]⟩
  · by_cases h2 : x.2.1 = false ∧ x.2.2 = 3
    · right
      exact ⟨true, fun t => by unfold applyRule; rw [if_neg h1, if_pos h2]⟩
    · left
      exact fun t => by unfold applyRule; rw [if_neg h1, if_neg h2]

theorem applyRule_comm {w h : ℤ} {s : Life} (hs : LifeInv w h s)
    {x y : ℤ × Bool × ℤ} (hx : 0 ≤ x.1) (hy : 0 ≤ y.1) (hxy : x.1 ≠ y.1) :
    (applyRule s x).bind (fun t => applyRule t y) =
    (applyRule s y).bind (fun t => applyRule t x) := by
  rcases applyRule_shape x with hx0 | ⟨vx, hxv⟩ <;>
    rcases applyRule_shape y with hy0 | ⟨vy, hyv⟩
  · rw [hx0 s, hy0 s]
    show applyRule s y = applyRule s x
    rw [hx0 s, hy0 s]
  · rw [hx0 s]
    show applyRule s y = (applyRule s y).bind (fun t => applyRule t x)
    simp only [hx0]
    cases applyRule s y <;> rfl
  · rw [hy0 s]
    show (applyRule s x).bind (fun t => applyRule t y) = applyRule s x
    simp only [hy0]
    cases applyRule s x <;> rfl
  · rw [hxv s, hyv s]
    simp only [hxv, hyv]
    exact life_set_comm hs hx hy hxy

theorem runRules_perm {w h : ℤ} {l₁ l₂ : List (ℤ × Bool × ℤ)}
    (hperm : l₁.Perm l₂) :
    ∀ s : Life, LifeInv w h s →
      (∀ x ∈ l₁, 0 ≤ x.1) → (l₁.map Prod.fst).Nodup →
      runRules s l₁ = runRules s l₂ := by
  induction hperm with
  | nil =>
    intro s _ _ _
    rfl
  | cons x hp ih =>
    intro s hs hpos hnd
    rw [runRules_cons, runRules_cons]
    cases happ : applyRule s x with
    | error e => rfl
    | ok u =>
      show runRules u _ = runRules u _
      refine ih u (LifeInv_applyRule hs happ)
        (fun z hz => hpos z (List.mem_cons_of_mem _ hz)) ?_
      simp only [List.map_cons, List.nodup_cons] at hnd
      exact hnd.2
  | swap x y l =>
    intro s hs hpos hnd
    simp only [runRules_cons]
    rw [← except_bind_assoc, ← except_bind_assoc]
    have hyx : y.1 ≠ x.1 := by
      simp only [List.map_cons, List.nodup_cons, List.mem_cons] at hnd
      exact fun hc => hnd.1 (Or.inl hc)
    rw [applyRule_comm hs (hpos y (List.mem_cons_self _ _))
      (hpos x (List.mem_cons_of_mem _ (List.mem_cons_self _ _))) hyx]
  | trans h12 h23 ih12 ih23 =>
    intro s hs hpos hnd
    rw [ih12 s hs hpos hnd,
      ih23 s hs (fun z hz => hpos z (h12.mem_iff.mpr hz))
        ((h12.map Prod.fst).nodup_iff.mp hnd)]

theorem snapList_eq_map {s : Life} {l : List ℤ}
    (hv : ∀ p ∈ l, validIdx s.live.length p ∧ validIdx s.neighbours.length p) :
    snapList s l = .ok (l.map (fun p =>
      (p, s.live.getD (inorm s.live.length p) false,
          s.neighbours.getD (inorm s.neighbours.length p) 0))) := by
  induction l with
  | nil => rfl
  | cons p rest ih =>
    obtain ⟨h1, h2⟩ := hv p (List.mem_cons_self p rest)
    unfold snapList
    rw [pyGet_ok_of_valid h1 false, pyGet_ok_of_valid h2 0,
      ih (fun z hz => hv z (List.mem_cons_of_mem _ hz))]
    rfl

theorem snapList_error {s : Life} {l : List ℤ}
    (hlen : s.neighbours.length = s.live.length)
    (hbad : ∃ p ∈ l, ¬ validIdx s.live.length p) :
    snapList s l = .error .indexError := by
  induction l with
  | nil =>
    obtain ⟨p, hp, -⟩ := hbad
    cases hp
  | cons p rest ih =>
    unfold snapList
    by_cases hp : validIdx s.live.length p
    · have hp2 : validIdx s.neighbours.length p := by rw [hlen]; exact hp
      rw [pyGet_ok_of_valid hp false, pyGet_ok_of_valid hp2 0]
      have hbad' : ∃ z ∈ rest, ¬ validIdx s.live.length z := by
        obtain ⟨z, hz, hzbad⟩ := hbad
        rcases List.mem_cons.mp hz with rfl | hz'
        · exact absurd hp hzbad
        · exact ⟨z, hz', hzbad⟩
      rw [ih hbad']
    · rw [pyGet_eq_error.mpr ⟨hp, rfl⟩]

/-- C10 counterexample: a generation step is NOT order-independent in full.
`aliC` is reachable on the 1×1 grid (`set(-5,True); set(4,False);
set(-5,True)`), and its dirty set `{-5,-4,-3,4,5,6}` contains the aliased
pair `-5`/`4` (both address the centre slot `4`).  Enumerating the dirty set
ascending (`sortFinZ`, the model's order for `Life.gen`) versus processing
`4,5,6` first gives two completed generations with identical `live` and
`neighbours` but different `needs_update` (`{-5,-4,-3}` vs `{4,5,6}`). -/
theorem update_order_dependent :
    Reach 1 1 aliC ∧
    (sortFinZ aliC.needs_update = [-5, -4, -3, 4, 5, 6] ∧
     List.Perm [(-5 : ℤ), -4, -3, 4, 5, 6] [4, 5, 6, -5, -4, -3] ∧
     List.Nodup [(-5 : ℤ), -4, -3, 4, 5, 6] ∧
     okE (genWith aliC [-5, -4, -3, 4, 5, 6]) = true ∧
     okE (genWith aliC [4, 5, 6, -5, -4, -3]) = true ∧
     (getLife (genWith aliC [-5, -4, -3, 4, 5, 6])).live =
       (getLife (genWith aliC [4, 5, 6, -5, -4, -3])).live ∧
     (getLife (genWith aliC [-5, -4, -3, 4, 5, 6])).neighbours =
       (getLife (genWith aliC [4, 5, 6, -5, -4, -3])).neighbours ∧
     (getLife (genWith aliC [-5, -4, -3, 4, 5, 6])).needs_update ≠
       (getLife (genWith aliC [4, 5, 6, -5, -4, -3])).needs_update) :=
  ⟨@Reach.set 1 1 aliB aliC (-5) true
    (@Reach.set 1 1 aliA aliB 4 false
      (@Reach.set 1 1 g11 aliA (-5) true
        (@Reach.init 1 1 g11 (by decide)) (by decide))
      (by decide))
    (by decide),
   by decide⟩

/-- C10 (amended): a generation step is order-independent across all
duplicate-free enumerations of nonnegative dirty entries: snapshotting and
applying the birth/death rule along any two such enumerations that are
permutations of each other produces the same result (state or error). -/
theorem update_order_independent {w h : ℤ} {s : Life} (hs : LifeInv w h s)
    {l₁ l₂ : List ℤ} (hperm : l₁.Perm l₂) (hnd : l₁.Nodup)
    (hpos : ∀ p ∈ l₁, 0 ≤ p) :
    genWith s l₁ = genWith s l₂ := by
  by_cases hval : ∀ p ∈ l₁, validIdx s.live.length p
  · have hv₁ : ∀ p ∈ l₁, validIdx s.live.length p ∧ validIdx s.neighbours.length p :=
      fun p hp => ⟨hval p hp, by rw [hs.nbLen, ← hs.liveLen]; exact hval p hp⟩
    have hv₂ : ∀ p ∈ l₂, validIdx s.live.length p ∧ validIdx s.neighbours.length p :=
      fun p hp => hv₁ p (hperm.mem_iff.mpr hp)
    unfold genWith
    rw [snapList_eq_map hv₁, snapList_eq_map hv₂]
    refine runRules_perm (hperm.map _) _ (LifeInv_clear hs) ?_ ?_
    · intro x hx
      obtain ⟨p, hp, hxeq⟩ := List.mem_map.mp hx
      rw [← hxeq]
      exact hpos p hp
    · simpa [List.map_map, Function.comp_def] using hnd
  · push_neg at hval
    obtain ⟨p, hp, hbadp⟩ := hval
    unfold genWith
    rw [snapList_error (by rw [hs.nbLen, ← hs.liveLen]) ⟨p, hp, hbadp⟩,
      snapList_error (by rw [hs.nbLen, ← hs.liveLen]) ⟨p, hperm.mem_iff.mp hp, hbadp⟩]

theorem update_order_independent_witness :
    genWith g11a [4, 5] = genWith g11a [5, 4] :=
  update_order_independent
    (@LifeInv_set 1 1 g11 g11a 4 true
      (@LifeInv_init 1 1 g11 (by decide) (by decide) (by decide)) (by decide))
    (by decide) (by decide) (by decide)
